import Mathlib

/-!
# Verification of the renterd upload engine against its specification

Shallow embedding of the slab codec (`src/object/slab.go`) and the
concurrent upload engine (`src/worker/upload.go`) of the renterd
repository, together with proofs settling the frozen claims C1–C10.

Machine integers are modelled as `Nat` with explicit `% 2^w` reductions
where the Go code can overflow or wrap.  Bytes are modelled as `Nat`
(xor is total and involutive irrespective of the 8-bit bound).
-/

namespace Renterd

/-- `rhpv2.SectorSize`: protocol constant, 4 MiB. -/
def sectorSize : Nat := 4194304

/-- `rhpv2.LeafSize`: protocol constant, 64 bytes. -/
def leafSize : Nat := 64

/-- `math.MaxInt64` = `math.MaxInt` on a 64-bit platform. -/
def maxInt64 : Nat := 9223372036854775807

/-- Reduction modulo 2^32, for Go `uint32` arithmetic. -/
def u32 (x : Nat) : Nat := x % 4294967296

/-- Go `uint32` subtraction `a - b` (wrapping), for `a b < 2^32`. -/
def u32sub (a b : Nat) : Nat := (a + 4294967296 - b) % 4294967296

/-- Go `uint64` decrement `x--` (wrapping at 0), for `x < 2^64`. -/
def u64dec (x : Nat) : Nat :=
  if x = 0 then 18446744073709551615 else x - 1

/-! ## C8: `SlabSlice.SectorRegion` (src/object/slab.go:107-115)

```go
func (ss SlabSlice) SectorRegion() (offset, length uint32) {
    minChunkSize := rhpv2.LeafSize * uint32(ss.MinShards)
    start := (ss.Offset / minChunkSize) * rhpv2.LeafSize
    end := ((ss.Offset + ss.Length) / minChunkSize) * rhpv2.LeafSize
    if (ss.Offset+ss.Length)%minChunkSize != 0 {
        end += rhpv2.LeafSize
    }
    return start, end - start
}
```
All arithmetic is `uint32`. -/
def sectorRegion (minShards offset length : Nat) : Nat × Nat :=
  let minChunkSize := u32 (leafSize * minShards)
  let start := u32 ((offset / minChunkSize) * leafSize)
  let sum := u32 (offset + length)
  let end0 := u32 ((sum / minChunkSize) * leafSize)
  let end1 := if sum % minChunkSize ≠ 0 then u32 (end0 + leafSize) else end0
  (start, u32sub end1 start)

/-! ## C4: `uploader.estimate` (src/worker/upload.go:751-763)

```go
func (u *uploader) estimate() float64 {
    bytesPerMS := int(u.statsSpeed.percentileP90())
    if bytesPerMS == 0 {
        bytesPerMS = math.MaxInt64
    }
    outstanding := (len(u.queue) + 1) * rhpv2.SectorSize
    return float64(outstanding / bytesPerMS)
}
```
`outstanding / bytesPerMS` is Go *integer* division; the resulting
integer is then converted to `float64`, so the returned value is the
integer quotient.  The p90 (a non-negative `float64`) is modelled as a
non-negative rational; Go's `int(x)` truncates toward zero, which for
non-negative `x` is the floor. -/
def estimate (queueLen : Nat) (p90 : ℚ) : Nat :=
  let bytesPerMS := (⌊p90⌋).toNat
  let bytesPerMS := if bytesPerMS = 0 then maxInt64 else bytesPerMS
  let outstanding := (queueLen + 1) * sectorSize
  outstanding / bytesPerMS

/-! ## C10: `uploader.track` (src/worker/upload.go:793-803)

```go
func (u *uploader) track(err error, d time.Duration) {
    if err != nil {
        u.consecutiveFailures++
        u.statsSpeed.track(1)
    } else {
        u.consecutiveFailures = 0
        u.statsSpeed.track(float64(rhpv2.SectorSize / d.Milliseconds()))
    }
}
```
`rhpv2.SectorSize / d.Milliseconds()` is 64-bit integer division; when
`d.Milliseconds()` is zero the Go runtime panics.  The panic is
modelled as `none`; a normal update returns the tracked sample and the
new consecutive-failure count. -/
def uploaderTrack (hasErr : Bool) (consecutiveFailures : Nat) (elapsedMs : Nat) :
    Option (ℚ × Nat) :=
  if hasErr then
    some (1, consecutiveFailures + 1)
  else
    if elapsedMs = 0 then none   -- integer division by zero: runtime panic
    else some (((sectorSize / elapsedMs : Nat) : ℚ), 0)

/-- `time.Duration.Milliseconds()` : integer division of nanoseconds by 10^6. -/
def durationMilliseconds (nanos : Nat) : Nat := nanos / 1000000

/-- `u32sub` agrees with plain subtraction when no wrap occurs. -/
lemma u32sub_eq_sub {a b : Nat} (hba : b ≤ a) (ha : a < 4294967296) :
    u32sub a b = a - b := by
  unfold u32sub
  omega

/-- Quotient of `m*q + (m-1)` by `m`. -/
lemma div_add_pred_of_dvd {m q : Nat} (hm : 0 < m) :
    (m * q + (m - 1)) / m = q := by
  rw [Nat.mul_add_div hm, Nat.div_eq_of_lt (by omega)]
  omega

/-- Quotient of `m*q + r + (m-1)` by `m` when `0 < r < m`. -/
lemma div_add_pred_of_not_dvd {m q r : Nat} (hm : 0 < m) (hr0 : 0 < r) (hr : r < m) :
    (m * q + r + (m - 1)) / m = q + 1 := by
  have h : m * q + r + (m - 1) = m * (q + 1) + (r - 1) := by ring_nf; omega
  rw [h, Nat.mul_add_div hm, Nat.div_eq_of_lt (by omega)]

/-- C8, theorem (amended): for `1 ≤ MinShards ≤ 255` (the field is a `uint8`)
and `offset + length ≤ 2^32 - 64` (no `uint32` overflow in the region
computation; always true for slices of a real slab, whose plaintext is at
most `255 · SECTOR_SIZE < 2^30` bytes), `SectorRegion` returns the region
whose start is `(offset / minChunk) · LEAF_SIZE` and whose end
(start plus returned length) is
`((offset + length + minChunk − 1) / minChunk) · LEAF_SIZE`,
with `minChunk = LEAF_SIZE · MinShards` and floor divisions. -/
theorem c8_sectorRegion_amended (minShards offset length : Nat)
    (h1 : 1 ≤ minShards) (h255 : minShards ≤ 255)
    (hoff : offset < 4294967296)
    (hsum : offset + length ≤ 4294967296 - 64) :
    (sectorRegion minShards offset length).1 = (offset / (leafSize * minShards)) * leafSize
    ∧ (sectorRegion minShards offset length).1 + (sectorRegion minShards offset length).2
      = ((offset + length + (leafSize * minShards - 1)) / (leafSize * minShards)) * leafSize := by
  simp only [sectorRegion, leafSize, u32sub]
  have hmcpos : 0 < 64 * minShards := by omega
  have humc : u32 (64 * minShards) = 64 * minShards := by
    unfold u32; omega
  rw [humc]
  -- abbreviations
  generalize hmcdef : 64 * minShards = mc at *
  have hmc64 : 64 ≤ mc := by omega
  have hmclt : mc < 4294967296 := by omega
  -- the start never wraps
  have hstart_le : (offset / mc) * 64 ≤ offset := by
    calc (offset / mc) * 64 ≤ (offset / 64) * 64 :=
          Nat.mul_le_mul_right _ (Nat.div_le_div_left hmc64 (by omega))
    _ ≤ offset := Nat.div_mul_le_self _ _
  have hstart : u32 ((offset / mc) * 64) = (offset / mc) * 64 := by
    unfold u32; omega
  -- the sum never wraps
  have hsum32 : u32 (offset + length) = offset + length := by
    unfold u32; omega
  rw [hstart, hsum32]
  generalize hsumdef : offset + length = sum at *
  have hend0_le : (sum / mc) * 64 ≤ sum := by
    calc (sum / mc) * 64 ≤ (sum / 64) * 64 :=
          Nat.mul_le_mul_right _ (Nat.div_le_div_left hmc64 (by omega))
    _ ≤ sum := Nat.div_mul_le_self _ _
  have hend0 : u32 ((sum / mc) * 64) = (sum / mc) * 64 := by
    unfold u32; omega
  rw [hend0]
  have hdm := Nat.div_add_mod sum mc
  have hmod_lt : sum % mc < mc := Nat.mod_lt _ hmcpos
  have hstart_le_end0 : (offset / mc) * 64 ≤ (sum / mc) * 64 :=
    Nat.mul_le_mul_right _ (Nat.div_le_div_right (by omega))
  refine ⟨rfl, ?_⟩
  by_cases hz : sum % mc = 0
  · -- sum is chunk-aligned: no leaf is added
    have hceil : (sum + (mc - 1)) / mc = sum / mc := by
      have h : sum + (mc - 1) = mc * (sum / mc) + (mc - 1) := by omega
      rw [h, div_add_pred_of_dvd hmcpos]
    rw [if_neg (by simpa using hz)]
    rw [show sum + (mc - 1) = sum + mc - 1 by omega] at hceil
    rw [show sum + (mc - 1) = sum + mc - 1 by omega, hceil]
    omega
  · -- a partial chunk: one extra leaf
    have hend1_lt : (sum / mc) * 64 + 64 < 4294967296 := by
      have hlt : mc * (sum / mc) < sum := by omega
      have h64 : (sum / mc) * 64 < sum := by
        calc (sum / mc) * 64 ≤ (sum / mc) * mc := Nat.mul_le_mul_left _ hmc64
        _ = mc * (sum / mc) := Nat.mul_comm _ _
        _ < sum := hlt
      omega
    have hceil : (sum + (mc - 1)) / mc = sum / mc + 1 := by
      have h : sum + (mc - 1) = mc * (sum / mc) + (sum % mc) + (mc - 1) := by omega
      rw [h, div_add_pred_of_not_dvd hmcpos (by omega) hmod_lt]
    rw [if_pos (by simpa using hz)]
    rw [show u32 ((sum / mc) * 64 + 64) = (sum / mc) * 64 + 64 from
      Nat.mod_eq_of_lt hend1_lt]
    rw [hceil]
    omega

/-- C8, witness: the amended theorem applied at
`MinShards = 2, offset = 10, length = 300`. -/
theorem c8_sectorRegion_amended_witness :
    (sectorRegion 2 10 300).1 = (10 / (leafSize * 2)) * leafSize
    ∧ (sectorRegion 2 10 300).1 + (sectorRegion 2 10 300).2
      = ((10 + 300 + (leafSize * 2 - 1)) / (leafSize * 2)) * leafSize :=
  c8_sectorRegion_amended 2 10 300 (by decide) (by decide) (by decide) (by decide)

/-- C8, counterexample: the claim as stated (for *every* `SlabSlice`) fails
when `Offset + Length` overflows `uint32`: at `MinShards = 2`,
`Offset = 2^32 − 1`, `Length = 1` the code computes the region
`(2147483584, 2147483712)` (start + length = 2^32), while the claimed end
`((offset + length + minChunk − 1) / minChunk) · LEAF_SIZE = 2147483648`. -/
theorem c8_counterexample :
    (sectorRegion 2 4294967295 1).1 + (sectorRegion 2 4294967295 1).2 = 4294967296
    ∧ ((4294967295 + 1 + (leafSize * 2 - 1)) / (leafSize * 2)) * leafSize = 2147483648
    ∧ (sectorRegion 2 4294967295 1).1 + (sectorRegion 2 4294967295 1).2
      ≠ ((4294967295 + 1 + (leafSize * 2 - 1)) / (leafSize * 2)) * leafSize := by
  refine ⟨by decide, by decide, by decide⟩

/-- C4, counterexample: a cold uploader (p90 = 0) gets
`bytesPerMS = math.MaxInt64`, and the Go *integer* division
`outstanding / bytesPerMS` then returns 0 — the smallest possible
estimate — while an uploader with recorded throughput p90 = SECTOR_SIZE
bytes/ms and an empty queue gets estimate 1.  So the cold uploader's
estimate is *not* strictly greater, and under the ascending sort the cold
uploader is ordered first, not last. -/
theorem c4_counterexample :
    estimate 0 0 = 0 ∧ estimate 0 4194304 = 1
    ∧ ¬ (estimate 0 4194304 < estimate 0 0) := by
  have h0 : (⌊(0 : ℚ)⌋).toNat = 0 := by norm_num
  have h1 : (⌊(4194304 : ℚ)⌋).toNat = 4194304 := by
    rw [show ⌊(4194304 : ℚ)⌋ = 4194304 by norm_num]; rfl
  refine ⟨?_, ?_, ?_⟩ <;>
    simp [estimate, h0, h1, maxInt64, sectorSize]

/-- C4, theorem (amended): `estimate()` returns the *integer* quotient
`((queueLen + 1) · SECTOR_SIZE) / ⌊p90⌋` when `⌊p90⌋ ≥ 1`; when
`⌊p90⌋ = 0` (every cold uploader) the divisor is replaced by
`math.MaxInt64`, so the estimate is `((queueLen+1) · SECTOR_SIZE) / MaxInt64`,
which is 0 for any realistic queue length — hence under the ascending sort
a cold uploader is ordered *before* (not after) every uploader with
recorded throughput. -/
theorem c4_estimate_amended (q q' : Nat) (p p' : ℚ)
    (hcold : ⌊p⌋ = 0) (hwarm : 1 ≤ ⌊p'⌋)
    (hbound : (q + 1) * sectorSize < maxInt64) :
    estimate q' p' = ((q' + 1) * sectorSize) / (⌊p'⌋).toNat
    ∧ estimate q p = 0
    ∧ estimate q p ≤ estimate q' p' := by
  have hw : (⌊p'⌋).toNat ≠ 0 := by omega
  have hc : (⌊p⌋).toNat = 0 := by omega
  have hwarm_eq : estimate q' p' = ((q' + 1) * sectorSize) / (⌊p'⌋).toNat := by
    simp [estimate, hw]
  have hcold_eq : estimate q p = 0 := by
    simp only [estimate, hc, if_pos rfl]
    exact Nat.div_eq_of_lt hbound
  exact ⟨hwarm_eq, hcold_eq, by omega⟩

/-- C4, witness: the amended theorem applied at a cold uploader
(`p90 = 0`) and a warm one (`p90 = 1` bytes/ms), both with empty queues. -/
theorem c4_estimate_amended_witness :
    estimate 0 (1 : ℚ) = ((0 + 1) * sectorSize) / (⌊(1 : ℚ)⌋).toNat
    ∧ estimate 0 (0 : ℚ) = 0
    ∧ estimate 0 (0 : ℚ) ≤ estimate 0 (1 : ℚ) :=
  c4_estimate_amended 0 0 0 1 (by norm_num) (by norm_num)
    (by norm_num [sectorSize, maxInt64])

/-- C10: the claim is right about the intent and the code panics: a
successful sector upload that completes in under one millisecond (here
500 µs) makes `d.Milliseconds()` zero, and
`rhpv2.SectorSize / d.Milliseconds()` divides by zero, so the statistics
update panics instead of recording a sample. -/
theorem c10_track_div_by_zero :
    durationMilliseconds 500000 = 0
    ∧ uploaderTrack false 0 (durationMilliseconds 500000) = none
    ∧ ∀ ms : Nat, 1 ≤ ms →
        uploaderTrack false 0 ms = some (((sectorSize / ms : Nat) : ℚ), 0) := by
  refine ⟨by decide, by decide, ?_⟩
  intro ms hms
  simp [uploaderTrack, show ms ≠ 0 by omega]

/-! ## Slab-upload coordinator (src/worker/upload.go:78-95, 930-1030)

The coordinator's mutable state.  Maps are modelled as association lists
with unique keys (`remaining : map[int]shardCtx` keeps the per-shard
context, identified here by a numeric id) or as total functions with
default 0 (`overdriving : map[int]int`, Go's zero value for absent keys).
A cancelled per-shard context is recorded in `cancelled`. -/

/-- Go `uint64` subtraction `a - b` (wrapping), for `a b < 2^64`. -/
def u64sub (a b : Nat) : Nat :=
  (a + 18446744073709551616 - b) % 18446744073709551616

/-- `object.Sector` as stored by the worker: host key and Merkle root
(`receive` leaves the `Contract` field at its zero value). -/
structure Sector where
  host : Nat
  root : Nat
deriving DecidableEq, Repr

def zeroSector : Sector := ⟨0, 0⟩

/-- Association-list lookup, modelling Go map indexing. -/
def mapFind : List (Nat × Nat) → Nat → Option Nat
  | [], _ => none
  | e :: rest, k => if e.1 = k then some e.2 else mapFind rest k

/-- Association-list deletion, modelling Go `delete(m, k)`. -/
def mapDelete : List (Nat × Nat) → Nat → List (Nat × Nat)
  | [], _ => []
  | e :: rest, k => if e.1 = k then mapDelete rest k else e :: mapDelete rest k

/-- State of one `slabUpload` (src/worker/upload.go:78-95). -/
structure SlabState where
  numInflight : Nat
  numLaunched : Nat
  lastOverdrive : Nat
  overdriving : Nat → Nat
  remaining : List (Nat × Nat)
  sectors : List Sector
  errs : List (Nat × Nat)
  cancelled : List Nat
  nextReadTriggered : Bool

/-- A `shardResp` (src/worker/upload.go:125-129): the responding shard's
index, the host key, the Merkle root, and an optional error (code). -/
structure ShardResp where
  sectorIndex : Nat
  hk : Nat
  root : Nat
  err : Option Nat

/-- `slabUpload.receive` (src/worker/upload.go:992-1018):

```go
s.numInflight--
if resp.err != nil {
    s.errs = append(s.errs, &HostError{resp.req.hk, resp.err})
    return false
}
if s.sectors[resp.req.sectorIndex].Root != (types.Hash256{}) {
    return false
}
s.sectors[resp.req.sectorIndex] = object.Sector{Host: resp.req.hk, Root: resp.root}
s.remaining[resp.req.sectorIndex].cancel()
delete(s.remaining, resp.req.sectorIndex)
return len(s.remaining) == 0
```
-/
def slabReceive (s : SlabState) (resp : ShardResp) : SlabState × Bool :=
  let s0 := { s with numInflight := u64dec s.numInflight }
  match resp.err with
  | some e => ({ s0 with errs := s0.errs ++ [(resp.hk, e)] }, false)
  | none =>
    if (s0.sectors.getD resp.sectorIndex zeroSector).root ≠ 0 then (s0, false)
    else
      let s1 := { s0 with
        sectors := s0.sectors.set resp.sectorIndex ⟨resp.hk, resp.root⟩,
        cancelled := s0.cancelled ++ [resp.sectorIndex],
        remaining := mapDelete s0.remaining resp.sectorIndex }
      (s1, s1.remaining.isEmpty)

lemma mapFind_mapDelete_ne (m : List (Nat × Nat)) (k i : Nat) (h : i ≠ k) :
    mapFind (mapDelete m k) i = mapFind m i := by
  induction m with
  | nil => rfl
  | cons e rest ih =>
    by_cases hek : e.1 = k
    · have hei : ¬ e.1 = i := by omega
      simp [mapDelete, mapFind, hek, hei, ih, Ne.symm h]
    · by_cases hei : e.1 = i
      · simp [mapDelete, mapFind, hek, hei, h, Ne.symm h]
      · simp [mapDelete, mapFind, hek, hei, ih]

lemma mapFind_of_mem_keys (m : List (Nat × Nat)) (i : Nat)
    (h : i ∈ m.map Prod.fst) : ∃ v, mapFind m i = some v := by
  induction m with
  | nil => simp at h
  | cons e rest ih =>
    by_cases hei : e.1 = i
    · exact ⟨e.2, by simp [mapFind, hei]⟩
    · rw [List.map_cons, List.mem_cons] at h
      rcases h with h | h
      · omega
      · simpa [mapFind, hei] using ih h

/-- `receive` on an error response. -/
lemma slabReceive_err (s : SlabState) (resp : ShardResp) (e : Nat)
    (h : resp.err = some e) :
    slabReceive s resp
      = ({ s with numInflight := u64dec s.numInflight,
                  errs := s.errs ++ [(resp.hk, e)] }, false) := by
  simp [slabReceive, h]

/-- `receive` on a duplicate success (slot already filled). -/
lemma slabReceive_dup (s : SlabState) (resp : ShardResp)
    (h : resp.err = none)
    (hroot : (s.sectors.getD resp.sectorIndex zeroSector).root ≠ 0) :
    slabReceive s resp = ({ s with numInflight := u64dec s.numInflight }, false) := by
  simp only [slabReceive, h]
  rw [if_pos hroot]

/-- `receive` on a first success for the slot. -/
lemma slabReceive_success (s : SlabState) (resp : ShardResp)
    (h : resp.err = none)
    (hroot : (s.sectors.getD resp.sectorIndex zeroSector).root = 0) :
    slabReceive s resp
      = ({ s with numInflight := u64dec s.numInflight,
                  sectors := s.sectors.set resp.sectorIndex ⟨resp.hk, resp.root⟩,
                  cancelled := s.cancelled ++ [resp.sectorIndex],
                  remaining := mapDelete s.remaining resp.sectorIndex },
          (mapDelete s.remaining resp.sectorIndex).isEmpty) := by
  simp only [slabReceive, h]
  rw [if_neg (not_not_intro hroot)]

/-- C2: `slabUpload.receive` — each branch behaves as the claim states, a
non-zero sector slot is never overwritten, and the invariant "every shard
index without a remaining entry has a non-zero root" is preserved (for
responses carrying a non-zero root).  Since `finished = true` means
`remaining` is empty, every one of the `N` slots of a completed slab holds
a root, and by write-once each was written exactly once. -/
theorem c2_receive (s : SlabState) (resp : ShardResp)
    (_hidx : resp.sectorIndex < s.sectors.length) :
    -- numInflight is decremented on every call
    ((slabReceive s resp).1.numInflight = u64dec s.numInflight)
    -- error responses: error appended to the host-error set, finished=false
    ∧ (∀ e, resp.err = some e →
        (slabReceive s resp).2 = false
        ∧ (slabReceive s resp).1.errs = s.errs ++ [(resp.hk, e)]
        ∧ (slabReceive s resp).1.sectors = s.sectors
        ∧ (slabReceive s resp).1.remaining = s.remaining)
    -- duplicate: slot already holds a non-zero root → discarded
    ∧ (resp.err = none →
        (s.sectors.getD resp.sectorIndex zeroSector).root ≠ 0 →
        (slabReceive s resp).2 = false
        ∧ (slabReceive s resp).1.sectors = s.sectors
        ∧ (slabReceive s resp).1.remaining = s.remaining)
    -- success: store {host, root}, cancel the shard ctx, delete remaining,
    -- finished ⟺ remaining empty
    ∧ (resp.err = none →
        (s.sectors.getD resp.sectorIndex zeroSector).root = 0 →
        (slabReceive s resp).1.sectors
            = s.sectors.set resp.sectorIndex ⟨resp.hk, resp.root⟩
        ∧ (slabReceive s resp).1.cancelled = s.cancelled ++ [resp.sectorIndex]
        ∧ (slabReceive s resp).1.remaining = mapDelete s.remaining resp.sectorIndex
        ∧ ((slabReceive s resp).2 = (mapDelete s.remaining resp.sectorIndex).isEmpty))
    -- write-once: a slot holding a non-zero root is never changed
    ∧ (∀ i, (s.sectors.getD i zeroSector).root ≠ 0 →
        (slabReceive s resp).1.sectors.getD i zeroSector = s.sectors.getD i zeroSector)
    -- completion invariant is preserved
    ∧ (resp.root ≠ 0 →
        (∀ i, i < s.sectors.length → mapFind s.remaining i = none →
            (s.sectors.getD i zeroSector).root ≠ 0) →
        (∀ i, i < (slabReceive s resp).1.sectors.length →
            mapFind (slabReceive s resp).1.remaining i = none →
            ((slabReceive s resp).1.sectors.getD i zeroSector).root ≠ 0)) := by
  refine ⟨?_, ?_, ?_, ?_, ?_, ?_⟩
  · cases herr : resp.err with
    | some e => rw [slabReceive_err s resp e herr]
    | none =>
      by_cases hroot : (s.sectors.getD resp.sectorIndex zeroSector).root ≠ 0
      · rw [slabReceive_dup s resp herr hroot]
      · rw [slabReceive_success s resp herr (by omega)]
  · intro e herr
    rw [slabReceive_err s resp e herr]
    exact ⟨rfl, rfl, rfl, rfl⟩
  · intro herr hroot
    rw [slabReceive_dup s resp herr hroot]
    exact ⟨rfl, rfl, rfl⟩
  · intro herr hroot
    rw [slabReceive_success s resp herr hroot]
    exact ⟨rfl, rfl, rfl, rfl⟩
  · intro i hi
    cases herr : resp.err with
    | some e => rw [slabReceive_err s resp e herr]
    | none =>
      by_cases hroot : (s.sectors.getD resp.sectorIndex zeroSector).root ≠ 0
      · rw [slabReceive_dup s resp herr hroot]
      · have hne : resp.sectorIndex ≠ i := by
          intro hcontra
          subst hcontra
          exact hroot hi
        rw [slabReceive_success s resp herr (by omega)]
        simp only []
        rw [List.getD_eq_getElem?_getD, List.getElem?_set_ne hne,
          ← List.getD_eq_getElem?_getD]
  · intro hroot hinv i hlen hrem
    cases herr : resp.err with
    | some e =>
      rw [slabReceive_err s resp e herr] at hlen hrem ⊢
      exact hinv i hlen hrem
    | none =>
      by_cases hdup : (s.sectors.getD resp.sectorIndex zeroSector).root ≠ 0
      · rw [slabReceive_dup s resp herr hdup] at hlen hrem ⊢
        exact hinv i hlen hrem
      · rw [slabReceive_success s resp herr (by omega)] at hlen hrem ⊢
        simp only [List.length_set] at hlen
        by_cases hii : i = resp.sectorIndex
        · subst hii
          rw [List.getD_eq_getElem?_getD,
            List.getElem?_set_self (by simpa using hlen)]
          simpa using hroot
        · rw [mapFind_mapDelete_ne _ _ _ hii] at hrem
          have hold := hinv i hlen hrem
          rw [List.getD_eq_getElem?_getD,
            List.getElem?_set_ne (by omega : resp.sectorIndex ≠ i),
            ← List.getD_eq_getElem?_getD]
          exact hold

/-- A concrete two-shard slab state (both shards still remaining). -/
def exSlabState : SlabState :=
  { numInflight := 2, numLaunched := 2, lastOverdrive := 0,
    overdriving := fun _ => 0,
    remaining := [(0, 100), (1, 101)],
    sectors := [zeroSector, zeroSector],
    errs := [], cancelled := [], nextReadTriggered := false }

/-- A concrete successful shard response for shard 0. -/
def exResp : ShardResp := { sectorIndex := 0, hk := 7, root := 42, err := none }

/-- C2, witness: the receive theorem applied at a concrete state and
response. -/
theorem c2_receive_witness :
    (slabReceive exSlabState exResp).1.numInflight = u64dec exSlabState.numInflight :=
  (c2_receive exSlabState exResp (by decide)).1

/-! ## C7: `slabUpload.overdrive` (src/worker/upload.go:930-972) -/

/-- Manager configuration relevant to overdrive. -/
structure UploadManagerCfg where
  maxOverdrive : Nat
  overdriveTimeout : Nat

/-- The argmin loop of `overdrive`:

```go
lowestSI := -1
s.overdriving[lowestSI] = math.MaxInt
for sI := range s.remaining {
    if s.overdriving[sI] < s.overdriving[lowestSI] {
        lowestSI = sI
    }
}
```
The accumulator holds the current best index (`none` encodes `-1`) and
its overdrive count (`math.MaxInt` initially). -/
def pickLowest (od : Nat → Nat) : List (Nat × Nat) → Option Nat × Nat → Option Nat × Nat
  | [], acc => acc
  | e :: rest, acc =>
    if od e.1 < acc.2 then pickLowest od rest (some e.1, od e.1)
    else pickLowest od rest acc

/-- The shard upload built by `overdrive` (src/worker/upload.go:961-971). -/
structure ShardUploadInfo where
  sID : Nat
  ctx : Nat
  overdrive : Bool
  sectorIndex : Nat
deriving DecidableEq, Repr

/-- `slabUpload.overdrive`: gating conditions (all Go `uint64`
comparisons; `numInflight - len(remaining)` wraps) followed by the
argmin selection over the remaining shard indices. -/
def slabOverdrive (cfg : UploadManagerCfg) (sID : Nat) (s : SlabState) (now : Nat) :
    Option ShardUploadInfo :=
  if s.remaining.length ≥ cfg.maxOverdrive then none
  else if now - s.lastOverdrive < cfg.overdriveTimeout then none
  else if u64sub s.numInflight s.remaining.length ≥ cfg.maxOverdrive then none
  else
    match (pickLowest s.overdriving s.remaining (none, maxInt64)).1 with
    | none => none
    | some lowestSI =>
      some { sID := sID, ctx := (mapFind s.remaining lowestSI).getD 0,
             overdrive := true, sectorIndex := lowestSI }

/-- Accumulator invariant of the argmin loop: either nothing in the list
beats the incoming accumulator, or the result is a key of the list whose
count is minimal and strictly below the incoming bound. -/
lemma pickLowest_correct (od : Nat → Nat) (m : List (Nat × Nat)) :
    ∀ (best : Option Nat) (bcnt : Nat),
    (pickLowest od m (best, bcnt) = (best, bcnt) ∧ ∀ e ∈ m, bcnt ≤ od e.1)
    ∨ (∃ i, (pickLowest od m (best, bcnt)).1 = some i
        ∧ i ∈ m.map Prod.fst
        ∧ (pickLowest od m (best, bcnt)).2 = od i
        ∧ od i < bcnt
        ∧ ∀ e ∈ m, od i ≤ od e.1) := by
  induction m with
  | nil => intro best bcnt; exact Or.inl ⟨rfl, by simp⟩
  | cons e rest ih =>
    intro best bcnt
    by_cases h : od e.1 < bcnt
    · rcases ih (some e.1) (od e.1) with ⟨h1, h2⟩ | ⟨i, h1, h2, h3, h4, h5⟩
      · right
        refine ⟨e.1, ?_, by simp, ?_, h, ?_⟩
        · simp [pickLowest, h, h1]
        · simp [pickLowest, h, h1]
        · intro f hf
          rcases List.mem_cons.mp hf with rfl | hf
          · exact le_refl _
          · exact h2 f hf
      · right
        refine ⟨i, ?_, ?_, ?_, by omega, ?_⟩
        · simp [pickLowest, h, h1]
        · simp [List.map_cons, List.mem_cons]
          right
          simpa using h2
        · simp [pickLowest, h, h3]
        · intro f hf
          rcases List.mem_cons.mp hf with rfl | hf
          · omega
          · exact h5 f hf
    · rcases ih best bcnt with ⟨h1, h2⟩ | ⟨i, h1, h2, h3, h4, h5⟩
      · left
        refine ⟨by simp [pickLowest, h, h1], ?_⟩
        intro f hf
        rcases List.mem_cons.mp hf with rfl | hf
        · omega
        · exact h2 f hf
      · right
        refine ⟨i, ?_, ?_, ?_, h4, ?_⟩
        · simp [pickLowest, h, h1]
        · simp [List.map_cons, List.mem_cons]
          right
          simpa using h2
        · simp [pickLowest, h, h3]
        · intro f hf
          rcases List.mem_cons.mp hf with rfl | hf
          · omega
          · exact h5 f hf

/-- C7: `overdrive` returns no shard upload exactly when one of the gating
conditions holds (`remaining ≥ maxOverdrive`; `now − lastOverdrive <
overdriveTimeout`; inflight overdrives already maxed out, with the Go
`uint64` wrap of `numInflight − len(remaining)`) or no shard remains;
otherwise it returns a shard upload marked `overdrive = true` whose sector
index is a remaining index of minimal overdrive count and which carries
that index's per-shard context.  The hypothesis that overdrive counts are
below `math.MaxInt` reflects every reachable state (counts grow by one per
launch). -/
theorem c7_overdrive (cfg : UploadManagerCfg) (sID : Nat) (s : SlabState) (now : Nat)
    (hcnt : ∀ e ∈ s.remaining, s.overdriving e.1 < maxInt64) :
    (slabOverdrive cfg sID s now = none ↔
      (s.remaining.length ≥ cfg.maxOverdrive
       ∨ now - s.lastOverdrive < cfg.overdriveTimeout
       ∨ u64sub s.numInflight s.remaining.length ≥ cfg.maxOverdrive
       ∨ s.remaining = []))
    ∧ (∀ u, slabOverdrive cfg sID s now = some u →
        u.overdrive = true
        ∧ u.sID = sID
        ∧ mapFind s.remaining u.sectorIndex = some u.ctx
        ∧ ∀ e ∈ s.remaining, s.overdriving u.sectorIndex ≤ s.overdriving e.1) := by
  by_cases h1 : s.remaining.length ≥ cfg.maxOverdrive
  · constructor
    · simp [slabOverdrive, h1]
    · intro u hu
      simp [slabOverdrive, h1] at hu
  · by_cases h2 : now - s.lastOverdrive < cfg.overdriveTimeout
    · constructor
      · simp [slabOverdrive, h1, h2]
      · intro u hu
        simp [slabOverdrive, h1, h2] at hu
    · by_cases h3 : u64sub s.numInflight s.remaining.length ≥ cfg.maxOverdrive
      · constructor
        · simp [slabOverdrive, h1, h2, h3]
        · intro u hu
          simp [slabOverdrive, h1, h2, h3] at hu
      · rcases pickLowest_correct s.overdriving s.remaining none maxInt64
          with ⟨hp1, hp2⟩ | ⟨i, hp1, hp2, hp3, hp4, hp5⟩
        · -- nothing selected: only possible when remaining is empty
          have hempty : s.remaining = [] := by
            cases hrem : s.remaining with
            | nil => rfl
            | cons e rest =>
              exfalso
              have := hp2 e (by rw [hrem]; exact List.mem_cons_self e rest)
              have := hcnt e (by rw [hrem]; exact List.mem_cons_self e rest)
              omega
          constructor
          · simp [slabOverdrive, h1, h2, h3, hempty, pickLowest]
          · intro u hu
            simp [slabOverdrive, h1, h2, h3, hempty, pickLowest] at hu
        · -- a shard is selected
          obtain ⟨v, hv⟩ := mapFind_of_mem_keys s.remaining i hp2
          constructor
          · simp only [slabOverdrive, if_neg h1, if_neg h2, if_neg h3, hp1]
            constructor
            · intro hc
              simp at hc
            · intro hc
              rcases hc with hc | hc | hc | hc
              · omega
              · omega
              · omega
              · rw [hc] at hp2
                simp at hp2
          · intro u hu
            simp only [slabOverdrive, if_neg h1, if_neg h2, if_neg h3, hp1] at hu
            have hu' : u = { sID := sID, ctx := (mapFind s.remaining i).getD 0,
                             overdrive := true, sectorIndex := i } :=
              Option.some_injective _ hu.symm
            subst hu'
            refine ⟨rfl, rfl, ?_, ?_⟩
            · simp [hv]
            · simpa using hp5

/-- A state in which overdrive fires: one shard remains, three launched,
one still inflight, last overdrive long ago. -/
def exOverdriveState : SlabState :=
  { numInflight := 1, numLaunched := 3, lastOverdrive := 0,
    overdriving := fun _ => 0,
    remaining := [(1, 101)],
    sectors := [⟨7, 42⟩, zeroSector],
    errs := [], cancelled := [0], nextReadTriggered := false }

/-- C7, witness: the overdrive theorem applied at a concrete state. -/
theorem c7_overdrive_witness :
    slabOverdrive ⟨3, 10⟩ 5 exOverdriveState 50 = none ↔
      (exOverdriveState.remaining.length ≥ 3
       ∨ 50 - exOverdriveState.lastOverdrive < 10
       ∨ u64sub exOverdriveState.numInflight exOverdriveState.remaining.length ≥ 3
       ∨ exOverdriveState.remaining = []) :=
  (c7_overdrive ⟨3, 10⟩ 5 exOverdriveState 50 (by decide)).1

/-! ## Uploaders, the manager pool and per-upload bookkeeping
(src/worker/upload.go:49-76, 190-226, 339-386, 408-474, 545-556, 588-597) -/

/-- Manager-level view of one `uploader` (src/worker/upload.go:49-62).
`started` records that a worker goroutine was spawned for it; `stopped`
records that its `stopChan` has been closed. -/
structure UploaderSt where
  fcid : Nat
  hk : Nat
  bh : Nat
  queueLen : Nat
  p90 : ℚ
  started : Bool
  stopped : Bool
deriving DecidableEq, Repr

/-- Per-upload state (src/worker/upload.go:64-76): the exclusion set fixed
at creation and the `used : map[slabID]map[FileContractID]struct{}` map,
modelled as an association list from slab id to the recorded contracts. -/
structure UploadSt where
  excluded : List Nat
  used : List (Nat × List Nat)
  ongoing : List Nat

/-- Lookup in the `used` map (absent slab ids yield the empty set). -/
def usedFor : List (Nat × List Nat) → Nat → List Nat
  | [], _ => []
  | e :: rest, k => if e.1 = k then e.2 else usedFor rest k

/-- `upload.canUseUploader` (src/worker/upload.go:545-556):

```go
_, excluded := u.excluded[ul.fcid]
if excluded { return false }
_, used := u.used[sID][ul.fcid]
return !used
```
-/
def canUseUploader (u : UploadSt) (sID : Nat) (ul : UploaderSt) : Bool :=
  !(u.excluded.contains ul.fcid) && !((usedFor u.used sID).contains ul.fcid)

/-- `upload.registerUsedUploader` (src/worker/upload.go:588-597). -/
def registerUsedUploader : List (Nat × List Nat) → Nat → Nat → List (Nat × List Nat)
  | [], sID, fcid => [(sID, [fcid])]
  | e :: rest, sID, fcid =>
    if e.1 = sID then (e.1, e.2 ++ [fcid]) :: rest
    else e :: registerUsedUploader rest sID fcid

/-- The candidate-filter-and-pick step of `uploadManager.uploader`
(src/worker/upload.go:428-461): candidates are the pool members that
`canUseUploader` admits, and the first one (of the estimate-sorted pool)
is returned.  The pool argument is the sorted snapshot; the theorems
below hold for every ordering, hence for the estimate sort. -/
def selectUploader (pool : List UploaderSt) (u : UploadSt) (sID : Nat) :
    Option UploaderSt :=
  (pool.filter (canUseUploader u sID)).head?

/-- `uploadManager.enqueue` (src/worker/upload.go:339-350): select an
uploader (or fail with `errNoFreeUploader`), schedule, and record the
chosen contract in `used[sID]`. -/
def mgrEnqueue (pool : List UploaderSt) (u : UploadSt) (sID : Nat) :
    Option (Nat × UploadSt) :=
  match selectUploader pool u sID with
  | none => none
  | some ul => some (ul.fcid, { u with used := registerUsedUploader u.used sID ul.fcid })

/-- A sequence of shard enqueues for one slab; each step may see a
differently ordered pool snapshot (the manager re-sorts by estimate under
its lock on every call).  Returns the chosen contract ids. -/
def runEnqueues (sID : Nat) : UploadSt → List (List UploaderSt) → List Nat × UploadSt
  | u, [] => ([], u)
  | u, pool :: rest =>
    match mgrEnqueue pool u sID with
    | none => ([], u)
    | some (f, u') =>
      let r := runEnqueues sID u' rest
      (f :: r.1, r.2)

lemma selectUploader_canUse (pool : List UploaderSt) (u : UploadSt) (sID : Nat)
    (ul : UploaderSt) (h : selectUploader pool u sID = some ul) :
    canUseUploader u sID ul = true := by
  unfold selectUploader at h
  have hmem : ul ∈ pool.filter (canUseUploader u sID) := by
    cases hf : pool.filter (canUseUploader u sID) with
    | nil => rw [hf] at h; simp at h
    | cons a rest =>
      rw [hf] at h
      simp at h
      subst h
      exact hf ▸ List.mem_cons_self a rest
  exact (List.mem_filter.mp hmem).2

lemma canUseUploader_spec (u : UploadSt) (sID : Nat) (ul : UploaderSt)
    (h : canUseUploader u sID ul = true) :
    ul.fcid ∉ u.excluded ∧ ul.fcid ∉ usedFor u.used sID := by
  unfold canUseUploader at h
  rw [Bool.and_eq_true, Bool.not_eq_true', Bool.not_eq_true'] at h
  exact ⟨by simpa using h.1, by simpa using h.2⟩

lemma usedFor_register_self (m : List (Nat × List Nat)) (sID fcid : Nat) :
    usedFor (registerUsedUploader m sID fcid) sID = usedFor m sID ++ [fcid] := by
  induction m with
  | nil => simp [registerUsedUploader, usedFor]
  | cons e rest ih =>
    by_cases he : e.1 = sID
    · simp [registerUsedUploader, usedFor, he]
    · simp [registerUsedUploader, usedFor, he, ih]

/-- Contract ids never chosen again once in `used[sID]`. -/
lemma runEnqueues_avoids_used (sID : Nat) (pools : List (List UploaderSt)) :
    ∀ (u : UploadSt) (f : Nat), f ∈ usedFor u.used sID →
      f ∉ (runEnqueues sID u pools).1 := by
  induction pools with
  | nil => intro u f _; simp [runEnqueues]
  | cons pool rest ih =>
    intro u f hf
    unfold runEnqueues
    cases he : mgrEnqueue pool u sID with
    | none => simp
    | some r =>
      obtain ⟨g, u'⟩ := r
      simp only [List.mem_cons, not_or]
      unfold mgrEnqueue at he
      cases hs : selectUploader pool u sID with
      | none => rw [hs] at he; simp at he
      | some ul =>
        rw [hs] at he
        simp at he
        obtain ⟨hg, hu'⟩ := he
        have hcan := canUseUploader_spec u sID ul (selectUploader_canUse _ _ _ _ hs)
        constructor
        · intro hcontra
          subst hcontra
          exact hcan.2 (hg ▸ hf)
        · apply ih u'
          rw [← hu']
          simp only []
          rw [usedFor_register_self]
          exact List.mem_append_left _ hf

/-- The chosen ids of an enqueue run, with the state they were chosen in. -/
lemma runEnqueues_sound (sID : Nat) (pools : List (List UploaderSt)) :
    ∀ (u : UploadSt),
      (∀ f ∈ (runEnqueues sID u pools).1, f ∉ u.excluded)
      ∧ (runEnqueues sID u pools).1.Nodup := by
  induction pools with
  | nil => intro u; constructor <;> simp [runEnqueues]
  | cons pool rest ih =>
    intro u
    unfold runEnqueues
    cases he : mgrEnqueue pool u sID with
    | none => constructor <;> simp
    | some r =>
      obtain ⟨g, u'⟩ := r
      unfold mgrEnqueue at he
      cases hs : selectUploader pool u sID with
      | none => rw [hs] at he; simp at he
      | some ul =>
        rw [hs] at he
        simp at he
        obtain ⟨hg, hu'⟩ := he
        have hcan := canUseUploader_spec u sID ul (selectUploader_canUse _ _ _ _ hs)
        have hexcl : u'.excluded = u.excluded := by rw [← hu']
        constructor
        · intro f hf
          rcases List.mem_cons.mp hf with rfl | hf
          · exact hg ▸ hcan.1
          · exact hexcl ▸ (ih u').1 f hf
        · refine List.nodup_cons.mpr ⟨?_, (ih u').2⟩
          apply runEnqueues_avoids_used
          rw [← hu']
          simp only []
          rw [usedFor_register_self]
          subst hg
          exact List.mem_append_right _ (List.mem_singleton_self _)

/-- C3: uploader selection never returns an uploader whose contract is
excluded or already recorded in `used[sID]`; a successful enqueue records
the chosen contract in `used[sID]`; consequently over any sequence of
shard enqueues for one slab (such as the `N` sectors that `Migrate`
returns) the chosen contract ids contain no excluded contract and are
pairwise distinct. -/
theorem c3_exclusion_and_uniqueness (pool : List UploaderSt) (u : UploadSt) (sID : Nat) :
    (∀ ul, selectUploader pool u sID = some ul →
        ul.fcid ∉ u.excluded ∧ ul.fcid ∉ usedFor u.used sID)
    ∧ (∀ f u', mgrEnqueue pool u sID = some (f, u') →
        usedFor u'.used sID = usedFor u.used sID ++ [f]
        ∧ u'.excluded = u.excluded)
    ∧ (∀ pools : List (List UploaderSt),
        (∀ f ∈ (runEnqueues sID u pools).1, f ∉ u.excluded)
        ∧ (runEnqueues sID u pools).1.Nodup) := by
  refine ⟨?_, ?_, ?_⟩
  · intro ul h
    exact canUseUploader_spec u sID ul (selectUploader_canUse _ _ _ _ h)
  · intro f u' h
    unfold mgrEnqueue at h
    cases hs : selectUploader pool u sID with
    | none => rw [hs] at h; simp at h
    | some ul =>
      rw [hs] at h
      simp at h
      obtain ⟨hf, hu'⟩ := h
      subst hf
      constructor
      · rw [← hu']
        simp only []
        exact usedFor_register_self u.used sID ul.fcid
      · rw [← hu']
  · intro pools
    exact runEnqueues_sound sID pools u

/-- A pool of three uploaders. -/
def exPool : List UploaderSt :=
  [⟨1, 11, 0, 0, 0, true, false⟩, ⟨2, 12, 0, 0, 0, true, false⟩,
   ⟨3, 13, 0, 0, 0, true, false⟩]

/-- An upload that excludes contract 2. -/
def exUpload : UploadSt := { excluded := [2], used := [], ongoing := [] }

/-- C3, witness: three enqueues for one slab on the concrete pool yield
pairwise-distinct, non-excluded contract ids. -/
theorem c3_exclusion_and_uniqueness_witness :
    (∀ f ∈ (runEnqueues 9 exUpload [exPool, exPool, exPool]).1, f ∉ exUpload.excluded)
    ∧ (runEnqueues 9 exUpload [exPool, exPool, exPool]).1.Nodup :=
  (c3_exclusion_and_uniqueness exPool exUpload 9).2.2 [exPool, exPool, exPool]

/-! ## C5: `uploadManager.RefreshUploaders` (src/worker/upload.go:190-226) -/

/-- `api.ContractMetadata`, reduced to the fields the manager reads. -/
structure ContractMeta where
  cid : Nat
  hostKey : Nat
deriving DecidableEq, Repr

/-- `uploadManager.newUploader` (src/worker/upload.go:388-400) followed by
`go uploader.start(...)`: a fresh uploader with empty queue, fresh stats
and an open stop channel, whose worker goroutine has been spawned. -/
def newUploaderSt (c : ContractMeta) : UploaderSt :=
  { fcid := c.cid, hk := c.hostKey, bh := 0, queueLen := 0, p90 := 0,
    started := true, stopped := false }

/-- `RefreshUploaders`:

```go
// recreate the pool: keep uploaders whose contract is still in c2m
// (removed ones are dropped from the slice — nothing else happens to them)
// add a new, started uploader for every contract without one
// update blockheight on every pool member
```
Returns the new pool and the dropped uploaders (the Go code simply
overwrites the slice; the dropped records here are the untouched
originals).  The source appends the missing uploaders in Go-map iteration
order; they are modelled in `contracts` order, which is equal up to
permutation. -/
def refreshUploaders (pool : List UploaderSt) (contracts : List ContractMeta)
    (bh : Nat) : List UploaderSt × List UploaderSt :=
  let keep := pool.filter (fun q => contracts.any (fun c => c.cid == q.fcid))
  let removed := pool.filter (fun q => !(contracts.any (fun c => c.cid == q.fcid)))
  let missing := contracts.filter (fun c => !(pool.any (fun q => q.fcid == c.cid)))
  ((keep ++ missing.map newUploaderSt).map (fun q => { q with bh := bh }), removed)

/-- `uploadManager.Stop` (src/worker/upload.go:252-259): closes every
*current* pool member's stop channel — the only place a stop signal is
ever delivered. -/
def managerStop (pool : List UploaderSt) : List UploaderSt :=
  pool.map (fun q => { q with stopped := true })

/-- An uploader whose worker is running (never signalled to stop). -/
def exRunningUploader : UploaderSt :=
  { fcid := 1, hk := 11, bh := 3, queueLen := 0, p90 := 0,
    started := true, stopped := false }

/-- C5, counterexample: refreshing with an empty contract set removes the
uploader from the pool, but no stop signal is delivered to it —
`RefreshUploaders` contains no `close(u.stopChan)`; removed uploaders'
worker goroutines keep blocking on their queues until `Stop()`.  This
falsifies the claim's "every uploader removed from the pool has been
signalled to stop (its stop signal delivered)". -/
theorem c5_counterexample :
    (refreshUploaders [exRunningUploader] [] 9).2 = [exRunningUploader]
    ∧ exRunningUploader.stopped = false
    ∧ ((refreshUploaders [exRunningUploader] [] 9).2.all (·.stopped)) = false := by
  refine ⟨rfl, rfl, rfl⟩

/-- C5, theorem (amended): after `RefreshUploaders(contracts, bh)` the pool
contains exactly the uploaders for the contract ids in `contracts`
(retained ones keep their state, newly appearing contracts get a fresh
started uploader), every pool member's block height is `bh`; uploaders
removed from the pool are the unmodified original records — in particular
they are *not* signalled to stop (their `stopped` flag is whatever it was;
only `Stop()` delivers stop signals). -/
theorem c5_refresh_amended (pool : List UploaderSt) (contracts : List ContractMeta)
    (bh : Nat) (hpool : (pool.map (·.fcid)).Nodup)
    (hcon : (contracts.map (·.cid)).Nodup) :
    (∀ f, f ∈ ((refreshUploaders pool contracts bh).1.map (·.fcid)) ↔
        f ∈ contracts.map (·.cid))
    ∧ ((refreshUploaders pool contracts bh).1.map (·.fcid)).Nodup
    ∧ (∀ q ∈ pool, q.fcid ∈ contracts.map (·.cid) →
        { q with bh := bh } ∈ (refreshUploaders pool contracts bh).1)
    ∧ (∀ c ∈ contracts, c.cid ∉ pool.map (·.fcid) →
        { newUploaderSt c with bh := bh } ∈ (refreshUploaders pool contracts bh).1)
    ∧ (∀ q ∈ (refreshUploaders pool contracts bh).1, q.bh = bh)
    ∧ ((refreshUploaders pool contracts bh).2
        = pool.filter (fun q => !(contracts.any (fun c => c.cid == q.fcid))))
    ∧ (∀ q ∈ (refreshUploaders pool contracts bh).2,
        q ∈ pool ∧ q.fcid ∉ contracts.map (·.cid)) := by
  refine ⟨?_, ?_, ?_, ?_, ?_, rfl, ?_⟩
  · intro f
    simp only [refreshUploaders, List.map_map, List.map_append, List.mem_append,
      List.mem_map, Function.comp, List.mem_filter, List.any_eq_true, beq_iff_eq]
    constructor
    · rintro (⟨q, ⟨hq, c, hc, hcq⟩, rfl⟩ | ⟨c, ⟨hc, hnp⟩, rfl⟩)
      · exact ⟨c, hc, hcq⟩
      · exact ⟨c, hc, rfl⟩
    · rintro ⟨c, hc, rfl⟩
      by_cases hp : c.cid ∈ pool.map (·.fcid)
      · rw [List.mem_map] at hp
        obtain ⟨q, hq, hqf⟩ := hp
        exact Or.inl ⟨q, ⟨hq, c, hc, hqf.symm⟩, hqf⟩
      · refine Or.inr ⟨c, ⟨hc, ?_⟩, rfl⟩
        simp only [Bool.not_eq_true', List.any_eq_false]
        intro q hq hcontra
        have hqc : q.fcid = c.cid := by simpa using hcontra
        exact hp (List.mem_map.mpr ⟨q, hq, hqc⟩)
  · simp only [refreshUploaders, List.map_map, List.map_append]
    rw [List.nodup_append]
    refine ⟨?_, ?_, ?_⟩
    · have hsub : (pool.filter (fun q => contracts.any (fun c => c.cid == q.fcid))).map
          (fun q => ({ q with bh := bh } : UploaderSt).fcid)
          = (pool.filter (fun q => contracts.any (fun c => c.cid == q.fcid))).map (·.fcid) := rfl
      have : ((pool.filter (fun q => contracts.any (fun c => c.cid == q.fcid))).map
          (·.fcid)).Sublist (pool.map (·.fcid)) :=
        (List.filter_sublist _).map _
      exact List.Nodup.sublist (by simpa [Function.comp] using this) hpool
    · have : (((contracts.filter (fun c => !(pool.any (fun q => q.fcid == c.cid)))).map
          newUploaderSt).map (fun q => ({ q with bh := bh } : UploaderSt).fcid))
          = (contracts.filter (fun c => !(pool.any (fun q => q.fcid == c.cid)))).map (·.cid) := by
        simp [List.map_map, Function.comp, newUploaderSt]
      rw [show (fun q => ({ q with bh := bh } : UploaderSt)) ∘ newUploaderSt
            = fun c => ({ newUploaderSt c with bh := bh } : UploaderSt) from rfl]
      have hsub : ((contracts.filter (fun c => !(pool.any (fun q => q.fcid == c.cid)))).map
          (·.cid)).Sublist (contracts.map (·.cid)) :=
        (List.filter_sublist _).map _
      have hnd := List.Nodup.sublist hsub hcon
      simpa [List.map_map, Function.comp, newUploaderSt] using hnd
    · -- kept ids are pool ids; missing ids are not pool ids
      intro f hf hg
      simp only [List.map_map, List.mem_map, Function.comp, List.mem_filter] at hf hg
      obtain ⟨q, ⟨hq, _⟩, hfq⟩ := hf
      obtain ⟨c, ⟨_, hnp⟩, hfc⟩ := hg
      simp only [Bool.not_eq_true', List.any_eq_false] at hnp
      have hqc : q.fcid = c.cid := by
        have h1 : q.fcid = f := hfq
        have h2 : c.cid = f := hfc
        omega
      exact absurd (by simpa using hqc) (by simpa using hnp q hq)
  · intro q hq hqin
    simp only [refreshUploaders]
    refine List.mem_map.mpr ⟨q, List.mem_append_left _ ?_, rfl⟩
    refine List.mem_filter.mpr ⟨hq, ?_⟩
    rw [List.any_eq_true]
    rw [List.mem_map] at hqin
    obtain ⟨c, hc, hcq⟩ := hqin
    exact ⟨c, hc, by simp [hcq]⟩
  · intro c hc hcp
    simp only [refreshUploaders]
    refine List.mem_map.mpr ⟨newUploaderSt c, List.mem_append_right _ ?_, rfl⟩
    refine List.mem_map.mpr ⟨c, ?_, rfl⟩
    refine List.mem_filter.mpr ⟨hc, ?_⟩
    simp only [Bool.not_eq_true', List.any_eq_false]
    intro q hq
    intro hcontra
    have hqc : q.fcid = c.cid := by simpa using hcontra
    exact hcp (List.mem_map.mpr ⟨q, hq, hqc⟩)
  · intro q hq
    simp only [refreshUploaders, List.mem_map] at hq
    obtain ⟨r, _, rfl⟩ := hq
    rfl
  · intro q hq
    simp only [refreshUploaders, List.mem_filter, Bool.not_eq_true',
      List.any_eq_false] at hq
    refine ⟨hq.1, ?_⟩
    rw [List.mem_map]
    rintro ⟨c, hc, hcq⟩
    exact absurd hcq (by simpa using hq.2 c hc)

/-- C5, witness: the amended theorem applied at a concrete pool — contract
1 is retained, contract 2 is new, the uploader of the vanished contract 7
is dropped untouched. -/
theorem c5_refresh_amended_witness :
    let pool := [exRunningUploader, ⟨7, 17, 3, 1, 2, true, false⟩]
    let contracts := [ContractMeta.mk 1 11, ContractMeta.mk 2 12]
    (∀ f, f ∈ ((refreshUploaders pool contracts 9).1.map (·.fcid)) ↔
        f ∈ contracts.map (·.cid))
    ∧ ((refreshUploaders pool contracts 9).1.map (·.fcid)).Nodup
    ∧ (∀ q ∈ pool, q.fcid ∈ contracts.map (·.cid) →
        { q with bh := 9 } ∈ (refreshUploaders pool contracts 9).1)
    ∧ (∀ c ∈ contracts, c.cid ∉ pool.map (·.fcid) →
        { newUploaderSt c with bh := 9 } ∈ (refreshUploaders pool contracts 9).1)
    ∧ (∀ q ∈ (refreshUploaders pool contracts 9).1, q.bh = 9)
    ∧ ((refreshUploaders pool contracts 9).2
        = pool.filter (fun q => !(contracts.any (fun c => c.cid == q.fcid))))
    ∧ (∀ q ∈ (refreshUploaders pool contracts 9).2,
        q ∈ pool ∧ q.fcid ∉ contracts.map (·.cid)) :=
  c5_refresh_amended _ _ 9 (by decide) (by decide)

/-! ## C6: `uploadManager.newUpload` / `Upload` (src/worker/upload.go:261-386) -/

/-- The error code for `errNotEnoughUploaders`. -/
def errNotEnoughUploaders : Nat := 1

/-- The usable-uploader count of `newUpload` (src/worker/upload.go:356-363):
pool members whose contract is not excluded. -/
def usableUploaders (pool : List UploaderSt) (excluded : List Nat) : Nat :=
  (pool.filter (fun q => !(excluded.contains q.fcid))).length

/-- `uploadManager.newUpload` (src/worker/upload.go:352-386). -/
def newUpload (pool : List UploaderSt) (totalShards : Nat) (excluded : List Nat) :
    Except Nat UploadSt :=
  if usableUploaders pool excluded < totalShards then .error errNotEnoughUploaders
  else .ok { excluded := excluded, used := [], ongoing := [] }

/-- `api.RedundancySettings`. -/
structure RedundancySettings where
  minShards : Nat
  totalShards : Nat

/-- The prefix of `uploadManager.Upload` (src/worker/upload.go:261-337)
relevant to C6: the object and cipher reader are created without touching
the source reader, then `newUpload(rs.TotalShards, nil)` runs; on error
`Upload` returns immediately.  The result records the error or success,
the number of source bytes consumed, and the manager pool after the call
(nothing in this path mutates it).  On success the driver loop consumes
the whole source (modelled as reading all of `data`). -/
def managerUpload (pool : List UploaderSt) (rs : RedundancySettings)
    (data : List Nat) : Except Nat Unit × Nat × List UploaderSt :=
  match newUpload pool rs.totalShards [] with
  | .error e => (.error e, 0, pool)
  | .ok _ => (.ok (), data.length, pool)

/-- The construction step of `uploadManager.Migrate`
(src/worker/upload.go:179-188): `newUpload(len(shards), excluded)`,
propagating its error. -/
def managerMigrateCheck (pool : List UploaderSt) (numShards : Nat)
    (excluded : List Nat) : Except Nat Unit :=
  match newUpload pool numShards excluded with
  | .error e => .error e
  | .ok _ => .ok ()

/-- C6: `newUpload` fails with `errNotEnoughUploaders` exactly when fewer
than `totalShards` pool members have a non-excluded contract; `Migrate`
propagates that error; and when `Upload` fails this way it does so before
consuming a single byte of the source, leaving the pool unchanged. -/
theorem c6_not_enough_uploaders (pool : List UploaderSt) (excluded : List Nat)
    (totalShards : Nat) (rs : RedundancySettings) (data : List Nat) :
    (newUpload pool totalShards excluded = .error errNotEnoughUploaders
      ↔ usableUploaders pool excluded < totalShards)
    ∧ (managerMigrateCheck pool totalShards excluded = .error errNotEnoughUploaders
      ↔ usableUploaders pool excluded < totalShards)
    ∧ (usableUploaders pool [] < rs.totalShards →
        managerUpload pool rs data = (.error errNotEnoughUploaders, 0, pool)) := by
  refine ⟨?_, ?_, ?_⟩
  · by_cases h : usableUploaders pool excluded < totalShards <;>
      simp [newUpload, h]
  · by_cases h : usableUploaders pool excluded < totalShards <;>
      simp [managerMigrateCheck, newUpload, h]
  · intro h
    simp [managerUpload, newUpload, h]

/-- C6, witness: scenario S3 of the spec — `N = 5`, pool of 3 — `Upload`
returns `NotEnoughUploaders` with zero bytes read and the pool intact. -/
theorem c6_not_enough_uploaders_witness :
    managerUpload exPool ⟨2, 5⟩ [1, 2, 3] = (.error errNotEnoughUploaders, 0, exPool) :=
  (c6_not_enough_uploaders exPool [] 5 ⟨2, 5⟩ [1, 2, 3]).2.2 (by decide)

/-! ## C9: the parent-slab gate (src/worker/upload.go:442-471, 476-502)

The slab lifecycle of one object upload, as a transition system.  A slab
id is *created* when `newSlabUpload` appends it to `u.ongoing`
(src/worker/upload.go:495-502; ids are fresh 8-byte randoms), *launched*
when `uploadManager.uploader` first returns a candidate for one of its
shards — which the source only does after checking that fewer than 3
older ongoing slabs precede it (lines 442-471: `parents` is the prefix of
`u.ongoing` before the shard's slab id, and a candidate is returned only
when `len(parents) < 3`, otherwise the call blocks on `doneShardTrigger`
and re-checks) — and *finished* when `finishSlabUpload` removes it from
`u.ongoing` (lines 476-493).  Concurrency of the driver, the slab
goroutines and the uploaders is modelled by the arbitrary interleaving of
these steps. -/

/-- `parents` of a slab id in the ongoing list (src/worker/upload.go:450-456):
the prefix of `ongoing` strictly before the id. -/
def parentsCount (l : List Nat) (id : Nat) : Nat :=
  (l.takeWhile (fun x => x != id)).length

/-- State of one object upload's slab lifecycle. -/
structure DriverSt where
  ongoing : List Nat
  launched : List Nat
  finished : List Nat

/-- The three events of the slab lifecycle, with the guards the source
imposes. -/
inductive DriverStep : DriverSt → DriverSt → Prop
  | create (s : DriverSt) (id : Nat)
      (h1 : id ∉ s.ongoing) (h2 : id ∉ s.finished) (h3 : id ∉ s.launched) :
      DriverStep s { s with ongoing := s.ongoing ++ [id] }
  | launch (s : DriverSt) (id : Nat)
      (h1 : id ∈ s.ongoing)
      (h2 : parentsCount s.ongoing id < 3) :
      DriverStep s { s with launched := id :: s.launched }
  | finish (s : DriverSt) (id : Nat) (h1 : id ∈ s.ongoing) :
      DriverStep s { s with ongoing := s.ongoing.erase id,
                            finished := id :: s.finished }

/-- Reachable states of one object upload. -/
inductive DriverReach : DriverSt → Prop
  | init : DriverReach ⟨[], [], []⟩
  | step {s t : DriverSt} : DriverReach s → DriverStep s t → DriverReach t

lemma takeWhile_append_of_mem (l l₂ : List Nat) (x : Nat) (h : x ∈ l) :
    (l ++ l₂).takeWhile (fun y => y != x) = l.takeWhile (fun y => y != x) := by
  induction l with
  | nil => simp at h
  | cons a rest ih =>
    by_cases hax : a = x
    · subst hax
      simp [List.takeWhile_cons]
    · have hx : x ∈ rest := by
        rcases List.mem_cons.mp h with h' | h'
        · omega
        · exact h'
      simp only [List.cons_append, List.takeWhile_cons]
      have : (a != x) = true := by simpa using hax
      rw [this]
      simp [ih hx]

lemma takeWhile_erase_length_le (l : List Nat) (e x : Nat) (h : x ≠ e) :
    ((l.erase e).takeWhile (fun y => y != x)).length
      ≤ (l.takeWhile (fun y => y != x)).length := by
  induction l with
  | nil => simp
  | cons a rest ih =>
    rw [List.erase_cons]
    by_cases hae : a = e
    · rw [if_pos (by simpa using hae)]
      have hax : (a != x) = true := by
        subst hae
        simpa using (Ne.symm h)
      simp only [List.takeWhile_cons, hax]
      simp
    · rw [if_neg (by simpa using hae)]
      by_cases hax : a = x
      · subst hax
        simp [List.takeWhile_cons]
      · have hx : (a != x) = true := by simpa using hax
        simp only [List.takeWhile_cons, hx]
        simpa using ih

/-- If every marked element of a duplicate-free list has fewer than `n`
list predecessors, at most `n` elements are marked. -/
lemma filter_length_le_of_takeWhile_lt (p : Nat → Bool) :
    ∀ (n : Nat) (l : List Nat), l.Nodup →
      (∀ x ∈ l, p x = true → (l.takeWhile (fun y => y != x)).length < n) →
      (l.filter p).length ≤ n := by
  intro n l
  induction l generalizing n with
  | nil => intro _ _; simp
  | cons a rest ih =>
    intro hnd hbound
    have hnd' : rest.Nodup := (List.nodup_cons.mp hnd).2
    have hanotin : a ∉ rest := (List.nodup_cons.mp hnd).1
    by_cases hpa : p a = true
    · have hn1 : 1 ≤ n := by
        have := hbound a (List.mem_cons_self a rest) hpa
        omega
      have hrest : ∀ x ∈ rest, p x = true →
          (rest.takeWhile (fun y => y != x)).length < n - 1 := by
        intro x hx hpx
        have hax : (a != x) = true := by
          have : a ≠ x := fun hc => hanotin (hc ▸ hx)
          simpa using this
        have := hbound x (List.mem_cons_of_mem a hx) hpx
        rw [List.takeWhile_cons, hax] at this
        simp at this
        omega
      have := ih (n - 1) hnd' hrest
      rw [List.filter_cons, if_pos hpa]
      simp only [List.length_cons]
      omega
    · have hrest : ∀ x ∈ rest, p x = true →
          (rest.takeWhile (fun y => y != x)).length < n := by
        intro x hx hpx
        have hax : (a != x) = true := by
          have : a ≠ x := fun hc => hanotin (hc ▸ hx)
          simpa using this
        have := hbound x (List.mem_cons_of_mem a hx) hpx
        rw [List.takeWhile_cons, hax] at this
        simp at this
        omega
      have := ih n hnd' hrest
      rw [List.filter_cons, if_neg (by simpa using hpa)]
      exact this

/-- The inductive invariant: the ongoing list is duplicate-free and
disjoint from the finished set, every launched-but-unfinished slab is
ongoing, and every launched-but-unfinished slab has fewer than 3 ongoing
predecessors. -/
structure DriverInv (s : DriverSt) : Prop where
  nodup : s.ongoing.Nodup
  disj : ∀ id ∈ s.ongoing, id ∉ s.finished
  launched_ongoing : ∀ id ∈ s.launched, id ∉ s.finished → id ∈ s.ongoing
  gate : ∀ id ∈ s.launched, id ∉ s.finished → parentsCount s.ongoing id < 3

lemma driver_step_inv {s t : DriverSt} (hstep : DriverStep s t)
    (ih : DriverInv s) : DriverInv t := by
  cases hstep with
  | create id h1 h2 h3 =>
      refine ⟨?_, ?_, ?_, ?_⟩
      · simp only []
        rw [List.nodup_append]
        exact ⟨ih.nodup, List.nodup_singleton id, by
          intro x hx hx'
          rw [List.mem_singleton] at hx'
          subst hx'
          exact h1 hx⟩
      · intro x hx
        rcases List.mem_append.mp hx with hx | hx
        · exact ih.disj x hx
        · rw [List.mem_singleton] at hx
          subst hx
          exact h2
      · intro x hx hfin
        exact List.mem_append_left _ (ih.launched_ongoing x hx hfin)
      · intro x hx hfin
        have hmem := ih.launched_ongoing x hx hfin
        unfold parentsCount
        rw [takeWhile_append_of_mem _ _ _ hmem]
        exact ih.gate x hx hfin
  | launch id h1 h2 =>
      refine ⟨ih.nodup, ih.disj, ?_, ?_⟩
      · intro x hx hfin
        rcases List.mem_cons.mp hx with rfl | hx
        · exact h1
        · exact ih.launched_ongoing x hx hfin
      · intro x hx hfin
        rcases List.mem_cons.mp hx with rfl | hx
        · exact h2
        · exact ih.gate x hx hfin
  | finish id h1 =>
      refine ⟨?_, ?_, ?_, ?_⟩
      · exact ih.nodup.erase id
      · intro x hx hfin
        have hxo : x ∈ s.ongoing := List.mem_of_mem_erase hx
        rcases List.mem_cons.mp hfin with rfl | hfin
        · exact (List.Nodup.not_mem_erase ih.nodup) hx
        · exact ih.disj x hxo hfin
      · intro x hx hfin
        simp only [List.mem_cons, not_or] at hfin
        obtain ⟨hxid, hfin⟩ := hfin
        have hxo := ih.launched_ongoing x hx hfin
        exact (List.mem_erase_of_ne hxid).mpr hxo
      · intro x hx hfin
        simp only [List.mem_cons, not_or] at hfin
        obtain ⟨hxid, hfin⟩ := hfin
        have := ih.gate x hx hfin
        unfold parentsCount
        calc ((s.ongoing.erase id).takeWhile (fun y => y != x)).length
            ≤ (s.ongoing.takeWhile (fun y => y != x)).length :=
              takeWhile_erase_length_le _ _ _ hxid
        _ < 3 := this

lemma driver_inv {s : DriverSt} (h : DriverReach s) : DriverInv s := by
  induction h with
  | init => exact ⟨by simp, by simp, by simp, by simp⟩
  | step _ hstep ih => exact driver_step_inv hstep ih

/-- C9: in every reachable state of one object upload, at most 3 slabs are
concurrently uploading (created, launched, and not yet finished); the
launch guard is exactly the source's "fewer than 3 older ongoing slabs"
check, otherwise the shard blocks on `doneShardTrigger` and retries. -/
theorem c9_parent_slab_bound (s : DriverSt) (h : DriverReach s) :
    (s.ongoing.filter
      (fun id => s.launched.contains id && !(s.finished.contains id))).length ≤ 3 := by
  have inv := driver_inv h
  apply filter_length_le_of_takeWhile_lt _ 3 _ inv.nodup
  intro x _ hpx
  rw [Bool.and_eq_true, Bool.not_eq_true'] at hpx
  have hl : x ∈ s.launched := by simpa using hpx.1
  have hf : x ∉ s.finished := by simpa using hpx.2
  exact inv.gate x hl hf

/-- C9, witness: the bound applied at a concrete reachable state (one slab
created and launched). -/
theorem c9_parent_slab_bound_witness :
    ((DriverSt.mk [1] [1] []).ongoing.filter
      (fun id => (DriverSt.mk [1] [1] []).launched.contains id
        && !((DriverSt.mk [1] [1] []).finished.contains id))).length ≤ 3 :=
  c9_parent_slab_bound ⟨[1], [1], []⟩
    (DriverReach.step
      (DriverReach.step DriverReach.init
        (DriverStep.create ⟨[], [], []⟩ 1 (by simp) (by simp) (by simp)))
      (DriverStep.launch ⟨[1], [], []⟩ 1 (by simp) (by simp [parentsCount])))

/-! ## C1: the slab codec (src/object/slab.go)

Bytes are `Nat` (xor is involutive regardless of the 8-bit bound).

The ChaCha20 library calls are modelled by an arbitrary keystream
function `ks : Nat → Nat → Nat`: `ks i j` is byte `j` of the keystream
that `chacha20.NewUnauthenticatedCipher(key, nonce)` produces for the
slab key and the nonce `[24]byte{1: byte(i)}` of shard `i`;
`SetCounter(c)` starts the stream at byte `c·64` (one ChaCha20 block is
64 bytes).  Both `Encrypt` and `Decrypt` derive their stream through the
same call with the same arguments, which is all the round-trip needs, so
the theorems quantify over `ks` (the slab key is absorbed into it).

The calls into `github.com/klauspost/reedsolomon` are modelled by an
`RSCode` whose documented contract (`RSValid`) is taken as a hypothesis:
`Encode` is systematic over `(k, n−k)` and fills every shard to sector
size; `Reconstruct`/`ReconstructData` restore a codeword from which at
most `n − k` shards were replaced by empty buffers. -/

/-- `XORKeyStream(shard, shard)` with keystream byte `f j` at position
`j`; the first argument is the starting stream position. -/
def xorStream (f : Nat → Nat) : Nat → List Nat → List Nat
  | _, [] => []
  | j, b :: rest => (b ^^^ f j) :: xorStream f (j + 1) rest

/-- The per-shard loop shared by `Slab.Encrypt` (src/object/slab.go:48-54)
and `SlabSlice.Decrypt` (src/object/slab.go:119-127): shard `i` is xored
with its own nonce's keystream, starting at stream counter `ctr`
(`Encrypt` uses 0, `Decrypt` uses `offset / minChunk`). -/
def cryptShards (ks : Nat → Nat → Nat) (ctr : Nat) : Nat → List (List Nat) → List (List Nat)
  | _, [] => []
  | i, s :: rest => xorStream (ks i) (ctr * 64) s :: cryptShards ks ctr (i + 1) rest

/-- `Slab.Encrypt`. -/
def slabEncrypt (ks : Nat → Nat → Nat) (shards : List (List Nat)) : List (List Nat) :=
  cryptShards ks 0 0 shards

/-- `SlabSlice.Decrypt`: stream counter `offset / (LeafSize·MinShards)`. -/
def sliceDecrypt (ks : Nat → Nat → Nat) (minShards offset : Nat)
    (shards : List (List Nat)) : List (List Nat) :=
  cryptShards ks (offset / (leafSize * minShards)) 0 shards

/-- Replace the shards at the indices selected by `d` with length-0
buffers (the "missing shard" convention of the reed-solomon library);
the first argument is the index of the list head. -/
def eraseWith (d : Nat → Bool) : Nat → List (List Nat) → List (List Nat)
  | _, [] => []
  | i, s :: rest => (if d i then [] else s) :: eraseWith d (i + 1) rest

/-- Go `copy(shard[off:], leaf)`: overwrite `min(len(shard)-off, len(leaf))`
bytes of `shard` starting at `off`. -/
def copyAt (s leaf : List Nat) (off : Nat) : List Nat :=
  s.take off ++ leaf.take (s.length - off) ++ s.drop (off + leaf.length)

/-- One pass of the inner loop of `stripedSplit`
(src/object/slab.go:148-155): each shard receives the next
`LeafSize = 64` bytes of the buffer at offset `off`. -/
def splitRound (buf : List Nat) (off : Nat) : List (List Nat) → List (List Nat)
  | [] => []
  | s :: rest => copyAt s (buf.take 64) off :: splitRound (buf.drop 64) off rest

/-- The outer loop of `stripedSplit`: rounds at offsets 0, 64, 128, …
while the buffer is non-empty (`buf.Len() > 0`).  With no data shards the
Go loop would never terminate; that unreachable case returns the shards
unchanged. -/
def stripedSplitLoop (buf : List Nat) (off : Nat) (shards : List (List Nat)) :
    List (List Nat) :=
  if buf.length = 0 ∨ shards.length = 0 then shards
  else stripedSplitLoop (buf.drop (64 * shards.length)) (off + 64) (splitRound buf off shards)
termination_by buf.length
decreasing_by
  rename_i h
  push_neg at h
  simp only [List.length_drop]
  have h1 : 1 ≤ shards.length := by omega
  omega

/-- `stripedSplit` (src/object/slab.go:148-155). -/
def stripedSplit (data : List Nat) (dataShards : List (List Nat)) : List (List Nat) :=
  stripedSplitLoop data 0 dataShards

/-- The inner loop of `stripedJoin` (src/object/slab.go:160-185) over the
data shards for one offset: take the 64-byte leaf of each shard at `off`
(error if short), consume `skip`, clip to `writeLen`, emit.  Returns the
updated `(skip, writeLen)` and the emitted bytes. -/
def joinRound (off : Nat) : List (List Nat) → Nat → Nat → Option (Nat × Nat × List Nat)
  | [], skip, writeLen => some (skip, writeLen, [])
  | s :: rest, skip, writeLen =>
    if (s.drop off).length < 64 then none   -- reedsolomon.ErrShortData
    else
      let piece := (s.drop off).take 64
      if piece.length ≤ skip then joinRound off rest (skip - piece.length) writeLen
      else
        let piece1 := piece.drop skip
        let piece2 := if writeLen < piece1.length then piece1.take writeLen else piece1
        match joinRound off rest 0 (writeLen - piece2.length) with
        | none => none
        | some (sk, wl, out) => some (sk, wl, piece2 ++ out)

/-- The outer loop of `stripedJoin`: rounds at offsets 0, 64, … while
`writeLen > 0`.  Structural recursion on a fuel that dominates the round
count of every terminating run (each round either consumes skip or writes
at least one byte); a run that exhausts the fuel corresponds to a
non-terminating Go loop and yields `none`. -/
def joinLoop (shards : List (List Nat)) : Nat → Nat → Nat → Nat → Option (List Nat)
  | _, _, _, 0 => none
  | off, skip, writeLen, fuel + 1 =>
    if writeLen = 0 then some []
    else
      match joinRound off shards skip writeLen with
      | none => none
      | some (sk, wl, out) => (joinLoop shards (off + 64) sk wl fuel).map (out ++ ·)

/-- `stripedJoin` (src/object/slab.go:160-185), returning the bytes
written to the destination writer. -/
def stripedJoin (dataShards : List (List Nat)) (skip writeLen : Nat) : Option (List Nat) :=
  joinLoop dataShards 0 skip writeLen (skip + writeLen + 1)

/-- The reed-solomon library interface consumed by the codec. -/
structure RSCode where
  encode : List (List Nat) → List (List Nat)
  reconstruct : List (List Nat) → Option (List (List Nat))
  reconstructData : List (List Nat) → Option (List (List Nat))

/-- The library contract of `reedsolomon.New(k, n-k)` with `Encode`,
`Reconstruct` and `ReconstructData`, as documented: encoding is
systematic on the first `k` (data) shards and sizes every shard to
`SECTOR_SIZE` when the data shards have that size; reconstruction of a
codeword from which at most `n − k` shards were emptied restores the
codeword exactly, and data-reconstruction restores at least the data
shards. -/
structure RSValid (k n : Nat) (rs : RSCode) : Prop where
  encode_length : ∀ shards, shards.length = n → (rs.encode shards).length = n
  encode_systematic : ∀ shards, shards.length = n →
    (rs.encode shards).take k = shards.take k
  encode_sizes : ∀ shards, shards.length = n →
    (∀ s ∈ shards.take k, s.length = sectorSize) →
    ∀ s ∈ rs.encode shards, s.length = sectorSize
  reconstruct_ok : ∀ shards d, shards.length = n →
    (∀ s ∈ shards.take k, s.length = sectorSize) →
    ((List.range n).filter d).length ≤ n - k →
    rs.reconstruct (eraseWith d 0 (rs.encode shards)) = some (rs.encode shards)
  reconstructData_ok : ∀ shards d, shards.length = n →
    (∀ s ∈ shards.take k, s.length = sectorSize) →
    ((List.range n).filter d).length ≤ n - k →
    ∃ out, rs.reconstructData (eraseWith d 0 (rs.encode shards)) = some out
      ∧ out.take k = (rs.encode shards).take k

/-- The shard preparation of `Slab.Encode` and `Slab.Reconstruct`: a
shard of capacity below `SECTOR_SIZE` is reallocated, then resliced to
`SECTOR_SIZE` (fresh buffers read as zeros). -/
def padTo (s : List Nat) : List Nat :=
  (s ++ List.replicate (sectorSize - s.length) 0).take sectorSize

/-- `Slab.Encode` (src/object/slab.go:58-70): size all shards, striped-split
the buffer over the first `MinShards` of them, reed-solomon encode. -/
def slabEncode (rs : RSCode) (minShards : Nat) (buf : List Nat)
    (shards : List (List Nat)) : List (List Nat) :=
  let prepped := shards.map padTo
  rs.encode (stripedSplit buf (prepped.take minShards) ++ prepped.drop minShards)

/-- `Slab.Reconstruct` (src/object/slab.go:75-93): shards must have length
0 or `SECTOR_SIZE` (else the source panics, modelled as `none`); lengths
are not changed by the capacity fix-up; then reed-solomon reconstruct. -/
def slabReconstruct (rs : RSCode) (shards : List (List Nat)) :
    Option (List (List Nat)) :=
  if shards.all (fun s => s.length == 0 || s.length == sectorSize)
  then rs.reconstruct shards
  else none

/-- `SlabSlice.Recover` (src/object/slab.go:130-144): nothing is written
when all shards are empty; otherwise reed-solomon `ReconstructData`, then
striped-join of the data shards with `skip = offset mod minChunk` and
`writeLen = length`. -/
def slabRecover (rs : RSCode) (minShards offset length : Nat)
    (shards : List (List Nat)) : Option (List Nat) :=
  if shards.all (·.isEmpty) then some []
  else
    match rs.reconstructData shards with
    | none => none
    | some sh => stripedJoin (sh.take minShards) (offset % (leafSize * minShards)) length

/-! ### Encryption round-trip lemmas -/

lemma xorStream_involutive (f : Nat → Nat) : ∀ (j : Nat) (s : List Nat),
    xorStream f j (xorStream f j s) = s := by
  intro j s
  induction s generalizing j with
  | nil => rfl
  | cons b rest ih =>
    simp only [xorStream]
    rw [Nat.xor_cancel_right, ih]

lemma cryptShards_involutive (ks : Nat → Nat → Nat) (ctr : Nat) :
    ∀ (i : Nat) (L : List (List Nat)),
    cryptShards ks ctr i (cryptShards ks ctr i L) = L := by
  intro i L
  induction L generalizing i with
  | nil => rfl
  | cons s rest ih =>
    simp only [cryptShards]
    rw [xorStream_involutive, ih]

lemma cryptShards_eraseWith (ks : Nat → Nat → Nat) (ctr : Nat) (d : Nat → Bool) :
    ∀ (i : Nat) (L : List (List Nat)),
    cryptShards ks ctr i (eraseWith d i (cryptShards ks ctr i L)) = eraseWith d i L := by
  intro i L
  induction L generalizing i with
  | nil => rfl
  | cons s rest ih =>
    simp only [cryptShards, eraseWith]
    by_cases hd : d i
    · rw [if_pos hd, if_pos hd]
      simp only [cryptShards, xorStream]
      rw [ih]
    · rw [if_neg hd, if_neg hd]
      rw [xorStream_involutive, ih]

lemma eraseWith_false : ∀ (i : Nat) (L : List (List Nat)),
    eraseWith (fun _ => false) i L = L := by
  intro i L
  induction L generalizing i with
  | nil => rfl
  | cons s rest ih => simp [eraseWith, ih]

lemma eraseWith_mem (d : Nat → Bool) : ∀ (i : Nat) (L : List (List Nat)) (s : List Nat),
    s ∈ eraseWith d i L → s = [] ∨ s ∈ L := by
  intro i L
  induction L generalizing i with
  | nil => intro s h; simp [eraseWith] at h
  | cons t rest ih =>
    intro s h
    simp only [eraseWith, List.mem_cons] at h
    rcases h with h | h
    · by_cases hd : d i
      · rw [if_pos hd] at h
        exact Or.inl h
      · rw [if_neg hd] at h
        exact Or.inr (h ▸ List.mem_cons_self t rest)
    · rcases ih (i + 1) s h with h' | h'
      · exact Or.inl h'
      · exact Or.inr (List.mem_cons_of_mem t h')

/-! ### Striping lemmas -/

lemma copyAt_length (s leaf : List Nat) (off : Nat) (h : off ≤ s.length) :
    (copyAt s leaf off).length = s.length := by
  simp only [copyAt, List.length_append, List.length_take, List.length_drop]
  omega

lemma copyAt_take (s leaf : List Nat) (off : Nat) (h : off ≤ s.length) :
    (copyAt s leaf off).take off = s.take off := by
  unfold copyAt
  rw [List.append_assoc, List.take_append_of_le_length (by
    simp only [List.length_take]; omega)]
  rw [List.take_take]
  congr 1
  omega

lemma copyAt_extract (s leaf : List Nat) (off : Nat)
    (h : off + leaf.length ≤ s.length) :
    ((copyAt s leaf off).drop off).take leaf.length = leaf := by
  have htk : (s.take off).length = off := by
    simp only [List.length_take]; omega
  have hlf : leaf.take (s.length - off) = leaf := List.take_of_length_le (by omega)
  have key : ∀ (l1 l2 : List Nat), l1.length = off → (l1 ++ l2).drop off = l2 := by
    intro l1 l2 hl
    rw [← hl, List.drop_left]
  unfold copyAt
  rw [hlf, List.append_assoc, key _ _ htk]
  exact List.take_left leaf _

lemma splitRound_length : ∀ (shards : List (List Nat)) (buf : List Nat) (off : Nat),
    (splitRound buf off shards).length = shards.length := by
  intro shards
  induction shards with
  | nil => intro buf off; rfl
  | cons s rest ih => intro buf off; simp [splitRound, ih]

lemma splitRound_sizes : ∀ (shards : List (List Nat)) (buf : List Nat) (off c : Nat),
    (∀ s ∈ shards, s.length = c) → off ≤ c →
    ∀ t ∈ splitRound buf off shards, t.length = c := by
  intro shards
  induction shards with
  | nil => intro buf off c _ _ t ht; simp [splitRound] at ht
  | cons s rest ih =>
    intro buf off c hall hoff t ht
    simp only [splitRound, List.mem_cons] at ht
    rcases ht with rfl | ht
    · rw [copyAt_length _ _ _ (by
        rw [hall s (List.mem_cons_self s rest)]; exact hoff)]
      exact hall s (List.mem_cons_self s rest)
    · exact ih (buf.drop 64) off c
        (fun x hx => hall x (List.mem_cons_of_mem s hx)) hoff t ht

lemma splitRound_prefix : ∀ (shards : List (List Nat)) (buf : List Nat) (off : Nat),
    (∀ s ∈ shards, off ≤ s.length) →
    List.Forall₂ (fun t s => t.take off = s.take off) (splitRound buf off shards) shards := by
  intro shards
  induction shards with
  | nil => intro buf off _; exact List.Forall₂.nil
  | cons s rest ih =>
    intro buf off hall
    simp only [splitRound]
    exact List.Forall₂.cons
      (copyAt_take _ _ _ (hall s (List.mem_cons_self s rest)))
      (ih (buf.drop 64) off (fun x hx => hall x (List.mem_cons_of_mem s hx)))

/-- The consecutive 64-byte leaves of a buffer. -/
def leafChunks : Nat → List Nat → List (List Nat)
  | 0, _ => []
  | kk + 1, buf => buf.take 64 :: leafChunks kk (buf.drop 64)

lemma leafChunks_flatten : ∀ (kk : Nat) (buf : List Nat), 64 * kk ≤ buf.length →
    (leafChunks kk buf).flatten = buf.take (64 * kk) := by
  intro kk
  induction kk with
  | zero => intro buf _; simp [leafChunks]
  | succ m ih =>
    intro buf h
    simp only [leafChunks, List.flatten_cons]
    rw [ih (buf.drop 64) (by simp only [List.length_drop]; omega)]
    rw [show 64 * (m + 1) = 64 + 64 * m by ring, List.take_add]

lemma splitRound_pieces : ∀ (shards : List (List Nat)) (buf : List Nat) (off : Nat),
    (∀ s ∈ shards, off + 64 ≤ s.length) →
    64 * shards.length ≤ buf.length →
    (splitRound buf off shards).map (fun t => (t.drop off).take 64)
      = leafChunks shards.length buf := by
  intro shards
  induction shards with
  | nil => intro buf off _ _; rfl
  | cons s rest ih =>
    intro buf off hall hbuf
    simp only [List.length_cons] at hbuf
    simp only [splitRound, List.map_cons, List.length_cons, leafChunks]
    refine List.cons_eq_cons.mpr ⟨?_, ?_⟩
    · have hlen : (buf.take 64).length = 64 := by
        simp only [List.length_take]
        omega
      have := copyAt_extract s (buf.take 64) off (by
        rw [hlen]
        exact hall s (List.mem_cons_self s rest))
      rw [hlen] at this
      exact this
    · exact ih (buf.drop 64) off
        (fun x hx => hall x (List.mem_cons_of_mem s hx))
        (by simp only [List.length_drop]; omega)

lemma forall₂_map_eq {α β γ : Type} (g : α → γ) (g' : β → γ) :
    ∀ {l1 : List α} {l2 : List β},
    List.Forall₂ (fun a b => g a = g' b) l1 l2 → l1.map g = l2.map g' := by
  intro l1 l2 h
  induction h with
  | nil => rfl
  | cons hab _ ih => simp [hab, ih]

lemma forall₂_take_trans {n : Nat} : ∀ {l1 l2 l3 : List (List Nat)},
    List.Forall₂ (fun a b => a.take n = b.take n) l1 l2 →
    List.Forall₂ (fun a b => a.take n = b.take n) l2 l3 →
    List.Forall₂ (fun a b => a.take n = b.take n) l1 l3 := by
  intro l1 l2 l3 h12
  induction h12 generalizing l3 with
  | nil =>
    intro h23
    cases h23
    exact List.Forall₂.nil
  | cons hab htail ih =>
    intro h23
    cases h23 with
    | cons hbc htail' => exact List.Forall₂.cons (hab.trans hbc) (ih htail')

lemma forall₂_take_mono {m n : Nat} (hmn : m ≤ n) : ∀ {l1 l2 : List (List Nat)},
    List.Forall₂ (fun a b => a.take n = b.take n) l1 l2 →
    List.Forall₂ (fun a b => a.take m = b.take m) l1 l2 := by
  intro l1 l2 h
  induction h with
  | nil => exact List.Forall₂.nil
  | cons hab _ ih =>
    refine List.Forall₂.cons ?_ ih
    have := congrArg (List.take m) hab
    rwa [List.take_take, List.take_take, min_eq_left hmn] at this

lemma joinRound_full : ∀ (L : List (List Nat)) (off writeLen : Nat),
    (∀ s ∈ L, 64 ≤ (s.drop off).length) →
    64 * L.length ≤ writeLen →
    joinRound off L 0 writeLen
      = some (0, writeLen - 64 * L.length,
              (L.map (fun s => (s.drop off).take 64)).flatten) := by
  intro L
  induction L with
  | nil => intro off writeLen _ _; simp [joinRound]
  | cons s rest ih =>
    intro off writeLen hall hw
    simp only [List.length_cons] at hw
    have h64 : 64 ≤ (s.drop off).length := hall s (List.mem_cons_self s rest)
    have hpiece : ((s.drop off).take 64).length = 64 := by
      simp only [List.length_take]; omega
    simp only [joinRound, if_neg (by omega : ¬ (s.drop off).length < 64)]
    rw [if_neg (by rw [hpiece]; omega)]
    simp only [List.drop_zero]
    rw [if_neg (by rw [hpiece]; omega)]
    rw [hpiece]
    rw [ih off (writeLen - 64)
      (fun x hx => hall x (List.mem_cons_of_mem s hx)) (by omega)]
    have harith : writeLen - 64 - 64 * rest.length
        = writeLen - 64 * (rest.length + 1) := by omega
    simp only [List.map_cons, List.flatten_cons, List.length_cons, harith]

/-- Lengths through the split loop: the shard count is preserved and every
shard keeps its (uniform) size. -/
lemma splitLoop_sizes : ∀ (m : Nat) (buf : List Nat) (shards : List (List Nat)) (off : Nat),
    buf.length = 64 * shards.length * m →
    (∀ s ∈ shards, s.length = off + 64 * m) →
    (stripedSplitLoop buf off shards).length = shards.length
    ∧ ∀ t ∈ stripedSplitLoop buf off shards, t.length = off + 64 * m := by
  intro m
  induction m with
  | zero =>
    intro buf shards off hbuf hsz
    rw [stripedSplitLoop, if_pos (Or.inl (by omega))]
    exact ⟨rfl, hsz⟩
  | succ mm ih =>
    intro buf shards off hbuf hsz
    by_cases hsh : shards.length = 0
    · rw [stripedSplitLoop, if_pos (Or.inr hsh)]
      refine ⟨rfl, hsz⟩
    · have hblen : buf.length = 64 * shards.length * mm + 64 * shards.length := by
        rw [hbuf, Nat.mul_succ]
      have hbpos : buf.length ≠ 0 := by
        have h64L : 0 < 64 * shards.length := by omega
        generalize 64 * shards.length * mm = X at hblen
        omega
      rw [stripedSplitLoop, if_neg (by omega)]
      have hlen' : (splitRound buf off shards).length = shards.length :=
        splitRound_length shards buf off
      have hbuf' : (buf.drop (64 * shards.length)).length
          = 64 * (splitRound buf off shards).length * mm := by
        rw [List.length_drop, hblen, hlen', Nat.add_sub_cancel]
      have hsz' : ∀ t ∈ splitRound buf off shards, t.length = (off + 64) + 64 * mm := by
        intro t ht
        have := splitRound_sizes shards buf off (off + 64 * (mm + 1)) hsz (by omega) t ht
        omega
      obtain ⟨h1, h2⟩ := ih (buf.drop (64 * shards.length)) (splitRound buf off shards)
        (off + 64) hbuf' hsz'
      refine ⟨by rw [h1, hlen'], ?_⟩
      intro t ht
      have := h2 t ht
      omega

/-- Writes of the split loop never touch bytes below the starting offset. -/
lemma splitLoop_prefix : ∀ (m : Nat) (buf : List Nat) (shards : List (List Nat)) (off : Nat),
    buf.length = 64 * shards.length * m →
    (∀ s ∈ shards, s.length = off + 64 * m) →
    List.Forall₂ (fun t s0 => t.take off = s0.take off)
      (stripedSplitLoop buf off shards) shards := by
  intro m
  induction m with
  | zero =>
    intro buf shards off hbuf _
    rw [stripedSplitLoop, if_pos (Or.inl (by omega))]
    exact List.forall₂_same.mpr (fun x _ => rfl)
  | succ mm ih =>
    intro buf shards off hbuf hsz
    by_cases hsh : shards.length = 0
    · rw [stripedSplitLoop, if_pos (Or.inr hsh)]
      exact List.forall₂_same.mpr (fun x _ => rfl)
    · have hblen : buf.length = 64 * shards.length * mm + 64 * shards.length := by
        rw [hbuf, Nat.mul_succ]
      have hbpos : buf.length ≠ 0 := by
        have h64L : 0 < 64 * shards.length := by omega
        generalize 64 * shards.length * mm = X at hblen
        omega
      rw [stripedSplitLoop, if_neg (by omega)]
      have hlen' : (splitRound buf off shards).length = shards.length :=
        splitRound_length shards buf off
      have hbuf' : (buf.drop (64 * shards.length)).length
          = 64 * (splitRound buf off shards).length * mm := by
        rw [List.length_drop, hblen, hlen', Nat.add_sub_cancel]
      have hsz' : ∀ t ∈ splitRound buf off shards, t.length = (off + 64) + 64 * mm := by
        intro t ht
        have := splitRound_sizes shards buf off (off + 64 * (mm + 1)) hsz (by omega) t ht
        omega
      have hF := ih (buf.drop (64 * shards.length)) (splitRound buf off shards)
        (off + 64) hbuf' hsz'
      have hF' := forall₂_take_mono (by omega : off ≤ off + 64) hF
      have hR := splitRound_prefix shards buf off (by
        intro s hs
        have := hsz s hs
        omega)
      exact forall₂_take_trans hF' hR

/-- The core round-trip: joining what the split loop wrote returns the
original buffer. -/
lemma joinLoop_splitLoop : ∀ (m : Nat) (buf : List Nat) (shards : List (List Nat))
    (off fuel : Nat),
    shards ≠ [] →
    buf.length = 64 * shards.length * m →
    (∀ s ∈ shards, s.length = off + 64 * m) →
    m < fuel →
    joinLoop (stripedSplitLoop buf off shards) off 0 buf.length fuel = some buf := by
  intro m
  induction m with
  | zero =>
    intro buf shards off fuel _ hbuf _ hfuel
    obtain ⟨f, rfl⟩ : ∃ f, fuel = f + 1 := ⟨fuel - 1, by omega⟩
    have hb0 : buf.length = 0 := by omega
    have hbnil : buf = [] := List.length_eq_zero.mp hb0
    rw [stripedSplitLoop, if_pos (Or.inl hb0)]
    subst hbnil
    simp [joinLoop]
  | succ mm ih =>
    intro buf shards off fuel hne hbuf hsz hfuel
    obtain ⟨f, rfl⟩ : ∃ f, fuel = f + 1 := ⟨fuel - 1, by omega⟩
    have hL : 0 < shards.length := List.length_pos.mpr hne
    have hblen : buf.length = 64 * shards.length * mm + 64 * shards.length := by
      rw [hbuf, Nat.mul_succ]
    have h64L : 0 < 64 * shards.length := by omega
    have hbpos : buf.length ≠ 0 := by
      generalize 64 * shards.length * mm = X at hblen
      omega
    rw [stripedSplitLoop, if_neg (by omega)]
    have hlen' : (splitRound buf off shards).length = shards.length :=
      splitRound_length shards buf off
    have hbuf' : (buf.drop (64 * shards.length)).length
        = 64 * (splitRound buf off shards).length * mm := by
      rw [List.length_drop, hblen, hlen', Nat.add_sub_cancel]
    have hsz' : ∀ t ∈ splitRound buf off shards, t.length = (off + 64) + 64 * mm := by
      intro t ht
      have := splitRound_sizes shards buf off (off + 64 * (mm + 1)) hsz (by omega) t ht
      omega
    obtain ⟨hFlen, hFsz⟩ := splitLoop_sizes mm (buf.drop (64 * shards.length))
      (splitRound buf off shards) (off + 64) hbuf' hsz'
    have hPre := splitLoop_prefix mm (buf.drop (64 * shards.length))
      (splitRound buf off shards) (off + 64) hbuf' hsz'
    -- one join round consumes the 64·k bytes this split round wrote
    have hFge : ∀ t ∈ stripedSplitLoop (buf.drop (64 * shards.length)) (off + 64)
        (splitRound buf off shards), 64 ≤ (t.drop off).length := by
      intro t ht
      have := hFsz t ht
      rw [List.length_drop]
      omega
    have h64buf : 64 * shards.length ≤ buf.length := by
      generalize 64 * shards.length * mm = X at hblen
      omega
    have hround := joinRound_full
      (stripedSplitLoop (buf.drop (64 * shards.length)) (off + 64)
        (splitRound buf off shards)) off buf.length hFge
      (by rw [hFlen, hlen']; exact h64buf)
    simp only [joinLoop, if_neg hbpos, hround]
    have hwl : buf.length - 64 * (stripedSplitLoop (buf.drop (64 * shards.length))
        (off + 64) (splitRound buf off shards)).length
        = (buf.drop (64 * shards.length)).length := by
      rw [hFlen, hlen', List.length_drop]
    rw [hwl]
    have hne' : splitRound buf off shards ≠ [] := by
      intro hcontra
      rw [hcontra] at hlen'
      simp at hlen'
      omega
    rw [ih (buf.drop (64 * shards.length)) (splitRound buf off shards)
      (off + 64) f hne' hbuf' hsz' (by omega)]
    -- the emitted bytes of the round are the first 64·k bytes of the buffer
    have hpieces : (stripedSplitLoop (buf.drop (64 * shards.length)) (off + 64)
        (splitRound buf off shards)).map (fun t => (t.drop off).take 64)
        = leafChunks shards.length buf := by
      have hstep : ∀ (t s0 : List Nat), t.take (off + 64) = s0.take (off + 64) →
          (t.drop off).take 64 = (s0.drop off).take 64 := by
        intro t s0 hts
        have hd := congrArg (fun l => l.drop off) hts
        simp only at hd
        rw [List.drop_take, List.drop_take] at hd
        simpa using hd
      have hmap : (stripedSplitLoop (buf.drop (64 * shards.length)) (off + 64)
            (splitRound buf off shards)).map (fun t => (t.drop off).take 64)
          = (splitRound buf off shards).map (fun s0 => (s0.drop off).take 64) :=
        forall₂_map_eq (fun (t : List Nat) => (t.drop off).take 64)
          (fun (s0 : List Nat) => (s0.drop off).take 64) (hPre.imp hstep)
      rw [hmap]
      rw [splitRound_pieces shards buf off (by
        intro s hs
        have := hsz s hs
        omega) h64buf]
    rw [hpieces, leafChunks_flatten shards.length buf h64buf]
    simp only [Option.map_some']
    rw [List.take_append_drop]

/-- C1: codec round-trip.  For every reed-solomon implementation
satisfying the library contract, every keystream, every plaintext `p` of
length `MinShards · SECTOR_SIZE`, and every choice of `N − MinShards`
shards to drop: encoding `p` (into the worker's fresh `make([][]byte, N)`
buffers), encrypting, decrypting at offset 0 and recovering with skip 0
and `writeLen = len(p)` writes back exactly `p`; and after replacing the
chosen shards of the encrypted slab with length-0 buffers, decrypting and
`Reconstruct` restore all shards to the encoded slab, so that the same
recovery again yields `p`.  (`Reconstruct` operates on decrypted shards,
as in the repository's migration path, since encryption is applied after
encoding.) -/
theorem c1_codec_roundtrip (rs : RSCode) (k n : Nat) (hrs : RSValid k n rs)
    (ks : Nat → Nat → Nat) (p : List Nat) (d : Nat → Bool)
    (hk : 1 ≤ k) (hkn : k ≤ n)
    (hp : p.length = k * sectorSize)
    (hd : ((List.range n).filter d).length = n - k) :
    slabRecover rs k 0 (k * sectorSize)
        (sliceDecrypt ks k 0 (slabEncrypt ks (slabEncode rs k p (List.replicate n []))))
      = some p
    ∧ slabReconstruct rs
        (sliceDecrypt ks k 0
          (eraseWith d 0 (slabEncrypt ks (slabEncode rs k p (List.replicate n [])))))
      = some (slabEncode rs k p (List.replicate n []))
    ∧ slabRecover rs k 0 (k * sectorSize) (slabEncode rs k p (List.replicate n []))
      = some p := by
  have hS : sectorSize = 4194304 := rfl
  -- the prepared shard buffers are n zeroed sectors
  have hpadnil : padTo [] = List.replicate sectorSize 0 := by
    simp [padTo, List.take_replicate]
  have hpad : (List.replicate n ([] : List Nat)).map padTo
      = List.replicate n (List.replicate sectorSize 0) := by
    rw [List.map_replicate, hpadnil]
  have htake : (List.replicate n (List.replicate sectorSize (0 : Nat))).take k
      = List.replicate k (List.replicate sectorSize 0) := by
    rw [List.take_replicate]
    congr 1
    omega
  have hdropz : (List.replicate n (List.replicate sectorSize (0 : Nat))).drop k
      = List.replicate (n - k) (List.replicate sectorSize 0) :=
    List.drop_replicate ..
  -- the striped split of the plaintext
  have hm : p.length = 64 * (List.replicate k (List.replicate sectorSize (0 : Nat))).length * 65536 := by
    rw [List.length_replicate, hp, hS]
    ring
  have hsz0 : ∀ s ∈ List.replicate k (List.replicate sectorSize (0 : Nat)),
      s.length = 0 + 64 * 65536 := by
    intro s hs
    rw [List.eq_of_mem_replicate hs, List.length_replicate, hS]
  obtain ⟨hsplen, hspsz⟩ := splitLoop_sizes 65536 p
    (List.replicate k (List.replicate sectorSize 0)) 0 hm hsz0
  have hsplen' : (stripedSplitLoop p 0
      (List.replicate k (List.replicate sectorSize 0))).length = k := by
    rw [hsplen, List.length_replicate]
  -- the encode argument
  have hencode_arg : slabEncode rs k p (List.replicate n [])
      = rs.encode (stripedSplitLoop p 0 (List.replicate k (List.replicate sectorSize 0))
          ++ List.replicate (n - k) (List.replicate sectorSize 0)) := by
    simp only [slabEncode, stripedSplit]
    rw [hpad, htake, hdropz]
  -- facts about the encode argument W
  have hWlen : (stripedSplitLoop p 0 (List.replicate k (List.replicate sectorSize 0))
      ++ List.replicate (n - k) (List.replicate sectorSize 0)).length = n := by
    rw [List.length_append, hsplen', List.length_replicate]
    omega
  have hWtake : (stripedSplitLoop p 0 (List.replicate k (List.replicate sectorSize 0))
      ++ List.replicate (n - k) (List.replicate sectorSize 0)).take k
      = stripedSplitLoop p 0 (List.replicate k (List.replicate sectorSize 0)) := by
    rw [List.take_append_of_le_length (by omega), List.take_of_length_le (by omega)]
  have hWsz : ∀ s ∈ (stripedSplitLoop p 0 (List.replicate k (List.replicate sectorSize 0))
      ++ List.replicate (n - k) (List.replicate sectorSize 0)).take k,
      s.length = sectorSize := by
    rw [hWtake]
    intro s hs
    have := hspsz s hs
    rw [hS]
    omega
  -- facts about the encoded slab
  have hclen : (slabEncode rs k p (List.replicate n [])).length = n := by
    rw [hencode_arg]
    exact hrs.encode_length _ hWlen
  have hcsys : (slabEncode rs k p (List.replicate n [])).take k
      = stripedSplitLoop p 0 (List.replicate k (List.replicate sectorSize 0)) := by
    rw [hencode_arg, hrs.encode_systematic _ hWlen, hWtake]
  have hcsz : ∀ s ∈ slabEncode rs k p (List.replicate n []), s.length = sectorSize := by
    rw [hencode_arg]
    exact hrs.encode_sizes _ hWlen hWsz
  -- recovery of the plain encoded slab
  have hjoin : stripedJoin
      (stripedSplitLoop p 0 (List.replicate k (List.replicate sectorSize 0)))
      0 (k * sectorSize) = some p := by
    rw [stripedJoin]
    have hfuel : 65536 < 0 + k * sectorSize + 1 := by
      have := Nat.le_mul_of_pos_left sectorSize (show 0 < k by omega)
      omega
    have := joinLoop_splitLoop 65536 p
      (List.replicate k (List.replicate sectorSize 0)) 0 (0 + k * sectorSize + 1)
      (by
        have : (List.replicate k (List.replicate sectorSize (0 : Nat))).length = k :=
          List.length_replicate ..
        intro hcontra
        rw [hcontra] at this
        simp at this
        omega)
      hm hsz0 hfuel
    rw [hp] at this
    exact this
  have hrecover : slabRecover rs k 0 (k * sectorSize)
      (slabEncode rs k p (List.replicate n [])) = some p := by
    have hne : ¬ ((slabEncode rs k p (List.replicate n [])).all (·.isEmpty) = true) := by
      have hcne : slabEncode rs k p (List.replicate n []) ≠ [] :=
        List.ne_nil_of_length_pos (by omega)
      obtain ⟨s, hs⟩ := List.exists_mem_of_ne_nil _ hcne
      intro hall
      rw [List.all_eq_true] at hall
      have h1 := hall s hs
      have h2 := hcsz s hs
      rw [List.isEmpty_iff] at h1
      rw [h1] at h2
      simp [hS] at h2
    rw [slabRecover, if_neg hne]
    have hcount0 : ((List.range n).filter (fun _ => false)).length ≤ n - k := by simp
    obtain ⟨out, hout, houttake⟩ :=
      hrs.reconstructData_ok _ (fun _ => false) hWlen hWsz hcount0
    rw [eraseWith_false] at hout
    rw [← hencode_arg] at hout
    rw [hout]
    show stripedJoin (out.take k) (0 % (leafSize * k)) (k * sectorSize) = some p
    rw [houttake, ← hencode_arg, hcsys]
    rw [Nat.zero_mod]
    exact hjoin
  refine ⟨?_, ?_, hrecover⟩
  · have hdec : sliceDecrypt ks k 0 (slabEncrypt ks (slabEncode rs k p (List.replicate n [])))
        = slabEncode rs k p (List.replicate n []) := by
      rw [sliceDecrypt, slabEncrypt, Nat.zero_div]
      exact cryptShards_involutive ks 0 0 _
    rw [hdec]
    exact hrecover
  · have hdec2 : sliceDecrypt ks k 0
        (eraseWith d 0 (slabEncrypt ks (slabEncode rs k p (List.replicate n []))))
        = eraseWith d 0 (slabEncode rs k p (List.replicate n [])) := by
      rw [sliceDecrypt, slabEncrypt, Nat.zero_div]
      exact cryptShards_eraseWith ks 0 d 0 _
    rw [hdec2]
    have hcond : (eraseWith d 0 (slabEncode rs k p (List.replicate n []))).all
        (fun s => s.length == 0 || s.length == sectorSize) = true := by
      rw [List.all_eq_true]
      intro s hs
      rcases eraseWith_mem d 0 _ s hs with rfl | hsc
      · simp
      · simp [hcsz s hsc]
    rw [slabReconstruct, if_pos hcond]
    rw [hencode_arg]
    exact hrs.reconstruct_ok _ d hWlen hWsz (by omega)

/-- The trivial `(k, n) = (1, 1)` reed-solomon code: no parity shards,
encoding is the identity, reconstruction (with zero allowed erasures)
returns its input. -/
def idRS : RSCode :=
  { encode := fun shards => shards,
    reconstruct := fun shards => some shards,
    reconstructData := fun shards => some shards }

lemma idRS_valid : RSValid 1 1 idRS := by
  have hfix : ∀ (d : Nat → Bool), ((List.range 1).filter d).length ≤ 1 - 1 →
      ∀ shards : List (List Nat), shards.length = 1 →
      eraseWith d 0 (idRS.encode shards) = shards := by
    intro d hcount shards h
    have hd0 : d 0 = false := by
      cases hdt : d 0
      · rfl
      · exfalso
        rw [show List.range 1 = [0] from rfl] at hcount
        simp [hdt] at hcount
    obtain ⟨s, rfl⟩ := List.length_eq_one.mp h
    show eraseWith d 0 [s] = [s]
    simp [eraseWith, hd0]
  constructor
  · intro shards h
    exact h
  · intro shards _
    rfl
  · intro shards h hsz s hs
    apply hsz
    rwa [List.take_of_length_le (by omega)]
  · intro shards d h hsz hcount
    rw [hfix d hcount shards h]
    rfl
  · intro shards d h hsz hcount
    refine ⟨shards, ?_, rfl⟩
    rw [hfix d hcount shards h]
    rfl

/-- The all-zero keystream, a concrete instance of the abstract ChaCha20
stream. -/
def zeroKS : Nat → Nat → Nat := fun _ _ => 0

/-- C1, witness: the round-trip theorem applied at the trivial code
(`MinShards = N = 1`), the zero keystream, a concrete 4-MiB plaintext of
byte 7, and the empty drop set. -/
theorem c1_codec_roundtrip_witness :
    slabRecover idRS 1 0 (1 * sectorSize)
        (sliceDecrypt zeroKS 1 0 (slabEncrypt zeroKS
          (slabEncode idRS 1 (List.replicate 4194304 7) (List.replicate 1 []))))
      = some (List.replicate 4194304 7)
    ∧ slabReconstruct idRS
        (sliceDecrypt zeroKS 1 0
          (eraseWith (fun _ => false) 0 (slabEncrypt zeroKS
            (slabEncode idRS 1 (List.replicate 4194304 7) (List.replicate 1 [])))))
      = some (slabEncode idRS 1 (List.replicate 4194304 7) (List.replicate 1 []))
    ∧ slabRecover idRS 1 0 (1 * sectorSize)
        (slabEncode idRS 1 (List.replicate 4194304 7) (List.replicate 1 []))
      = some (List.replicate 4194304 7) :=
  c1_codec_roundtrip idRS 1 1 idRS_valid zeroKS (List.replicate 4194304 7)
    (fun _ => false) (le_refl 1) (le_refl 1)
    (by rw [List.length_replicate, one_mul]; rfl)
    (by rfl)

end Renterd
